import Mathlib

set_option maxHeartbeats 1000000
set_option maxRecDepth 8000

/-!
Verification of the decompression primitives in
`src/libntfs-3g/decompress_common.h` (the code shared by the XPRESS and LZX
decompressors): the bit-stream reader, the Huffman symbol decoder
`read_huffsym`, and the LZ77 match copier `lz_copy`.

The C code is shallowly embedded as follows.

* Byte memory (both the input buffer and the decompressor's output buffer)
  is a total function `Nat → Nat`; every load through a `const u8 *` or
  `u8 *` pointer truncates with `% 256`, exactly as the `u8` type does.
* Pointers are `Nat` indices. `struct input_bitstream` stores the cursor
  `next` as an index from the buffer start and the end pointer as the
  buffer length `len`, so the C pointer difference `is->end - is->next`
  is `len - next` (as a signed quantity; the guards below are written in
  the equivalent overflow-free `Nat` form, e.g. `end - next >= 2` becomes
  `next + 2 ≤ len`, which agrees with the signed comparison for every
  value of `next` and `len`).
* `u32`/`unsigned` arithmetic is `Nat` arithmetic reduced `% 2^32` at the
  points where C wraps (`bitsleft -= n`, `bitbuf <<= n`, `length--`).
* The word-at-a-time fast path of `lz_copy` is compiled only under
  `FAST_UNALIGNED_ACCESS` (i386 / x86_64 / unaligned-capable ARM); the
  embedding models those platforms: `WORDSIZE = sizeof(size_t) = 8` and
  little-endian unaligned word loads/stores.
* The one loop that the source does not bound (the binary-tree walk in
  `read_huffsym`, a `do … while` over untrusted table entries) is embedded
  with an explicit fuel parameter; the theorems about it show that for a
  well-formed decode table a fuel of `max_codeword_len - table_bits`
  suffices, which is the termination claim itself.
-/

namespace NtfsDecompress

/-- Fetch of one byte through a `u8` pointer: loads truncate to 8 bits. -/
def byteAt (data : Nat → Nat) (p : Nat) : Nat := data p % 256

/-- C `get_unaligned_le16(p)`: `p[0] | ((u16)p[1] << 8)`. -/
def get_unaligned_le16 (data : Nat → Nat) (p : Nat) : Nat :=
  byteAt data p ||| byteAt data (p + 1) <<< 8

/-- C `get_unaligned_le32(p)`: `p[0] | p[1]<<8 | p[2]<<16 | p[3]<<24`. -/
def get_unaligned_le32 (data : Nat → Nat) (p : Nat) : Nat :=
  byteAt data p ||| byteAt data (p + 1) <<< 8 ||| byteAt data (p + 2) <<< 16 |||
    byteAt data (p + 3) <<< 24

/-- C `struct input_bitstream`.  `next` is the cursor as an index from the
start of the buffer and `len` is the length of the buffer, so the C end
pointer `is->end` corresponds to index `len`. -/
structure input_bitstream where
  bitbuf : Nat
  bitsleft : Nat
  next : Nat
  data : Nat → Nat
  len : Nat

/-- C `init_input_bitstream(is, buffer, size)`. -/
def init_input_bitstream (buffer : Nat → Nat) (size : Nat) : input_bitstream :=
  ⟨0, 0, 0, buffer, size⟩

/-- C `bitstream_ensure_bits(is, num_bits)`.  The guard
`is->end - is->next >= 2` is written as `next + 2 ≤ len` (equivalent for a
signed pointer difference).  In every reachable call `bitsleft ≤ 15` holds
under the guard (callers pass `num_bits ≤ 16`), so the `Nat` subtraction
`16 - bitsleft` agrees with the C `unsigned` subtraction. -/
def bitstream_ensure_bits (is : input_bitstream) (num_bits : Nat) : input_bitstream :=
  if is.bitsleft < num_bits then
    if is.next + 2 ≤ is.len then
      { is with
        bitbuf := (is.bitbuf |||
          get_unaligned_le16 is.data is.next <<< (16 - is.bitsleft)) % 2^32,
        next := is.next + 2,
        bitsleft := (is.bitsleft + 16) % 2^32 }
    else { is with bitsleft := (is.bitsleft + 16) % 2^32 }
  else is

/-- C `bitstream_peek_bits(is, num_bits)`. -/
def bitstream_peek_bits (is : input_bitstream) (num_bits : Nat) : Nat :=
  if num_bits = 0 then 0 else is.bitbuf >>> (32 - num_bits)

/-- C `bitstream_remove_bits(is, num_bits)`.  Both updates are the C
`u32`/`unsigned` operations: the shift wraps `% 2^32` and the decrement
`bitsleft -= num_bits` is subtraction modulo `2^32`. -/
def bitstream_remove_bits (is : input_bitstream) (num_bits : Nat) : input_bitstream :=
  { is with
    bitbuf := (is.bitbuf <<< num_bits) % 2^32,
    bitsleft := (is.bitsleft + (2^32 - num_bits % 2^32)) % 2^32 }

/-- C `bitstream_pop_bits(is, num_bits)`. -/
def bitstream_pop_bits (is : input_bitstream) (num_bits : Nat) : Nat × input_bitstream :=
  (bitstream_peek_bits is num_bits, bitstream_remove_bits is num_bits)

/-- C `bitstream_read_bits(is, num_bits)`. -/
def bitstream_read_bits (is : input_bitstream) (num_bits : Nat) : Nat × input_bitstream :=
  bitstream_pop_bits (bitstream_ensure_bits is num_bits) num_bits

/-- C `bitstream_read_byte(is)`. -/
def bitstream_read_byte (is : input_bitstream) : Nat × input_bitstream :=
  if is.len = is.next then (0, is)
  else (byteAt is.data is.next, { is with next := is.next + 1 })

/-- C `bitstream_read_u16(is)`.  The guard `is->end - is->next < 2` is
written as `len < next + 2`. -/
def bitstream_read_u16 (is : input_bitstream) : Nat × input_bitstream :=
  if is.len < is.next + 2 then (0, is)
  else (get_unaligned_le16 is.data is.next, { is with next := is.next + 2 })

/-- C `bitstream_read_u32(is)`. -/
def bitstream_read_u32 (is : input_bitstream) : Nat × input_bitstream :=
  if is.len < is.next + 4 then (0, is)
  else (get_unaligned_le32 is.data is.next, { is with next := is.next + 4 })

/-- C `bitstream_read_bytes(is, dst_buffer, count)`.  The guard is the C
expression `(size_t)(is->end - is->next) < count` with a 64-bit `size_t`:
the signed difference reduced modulo `2^64`.  `none` models the NULL
return; on success the copied bytes are returned together with the new
stream. -/
def bitstream_read_bytes (is : input_bitstream) (count : Nat) :
    Option (List Nat × input_bitstream) :=
  if (((is.len : Int) - (is.next : Int)) % 2^64).toNat < count then none
  else some ((List.range count).map fun i => byteAt is.data (is.next + i),
             { is with next := is.next + count })

/-- C `bitstream_align(is)`. -/
def bitstream_align (is : input_bitstream) : input_bitstream :=
  { is with bitsleft := 0, bitbuf := 0 }

/-- Read of `decode_table[k]`: the entries have type `u16`. -/
def tableAt (t : List Nat) (k : Nat) : Nat := t.getD k 0 % 65536

/-- The `do … while` binary-tree walk of `read_huffsym`, with explicit
fuel (the C loop has no bound of its own; the theorems show which fuel
suffices for a well-formed table).  Each iteration pops one bit
(`bitstream_pop_bits(istream, 1)`), forms
`key_bits = (entry & 0x3FFF) + bit`, reloads `entry = decode_table[key_bits]`,
and exits as soon as `entry < 0xC000`, returning that entry. -/
def huffsym_loop (t : List Nat) (is : input_bitstream) (entry : Nat) :
    Nat → Option (Nat × input_bitstream)
  | 0 => none
  | fuel + 1 =>
    let bit := bitstream_peek_bits is 1
    let is' := bitstream_remove_bits is 1
    let entry' := tableAt t ((entry &&& 0x3FFF) + bit)
    if entry' ≥ 0xC000 then huffsym_loop t is' entry' fuel
    else some (entry', is')

/-- C `read_huffsym(istream, decode_table, table_bits, max_codeword_len)`.
The `fuel` argument bounds the tree walk only (see `huffsym_loop`). -/
def read_huffsym (is : input_bitstream) (t : List Nat)
    (table_bits max_codeword_len fuel : Nat) : Option (Nat × input_bitstream) :=
  let is1 := bitstream_ensure_bits is max_codeword_len
  let key_bits := bitstream_peek_bits is1 table_bits
  let entry := tableAt t key_bits
  if entry < 0xC000 then
    some (entry &&& 0x7FF, bitstream_remove_bits is1 (entry >>> 11))
  else
    huffsym_loop t (bitstream_remove_bits is1 table_bits) entry fuel

/-! ### The LZ77 match copier `lz_copy` -/

/-- Store of one byte through a `u8` pointer. -/
def writeByte (m : Nat → Nat) (a v : Nat) : Nat → Nat :=
  fun x => if x = a then v % 256 else m x

/-- C `WORDSIZE`: `sizeof(size_t)` on the modelled (64-bit x86) platform. -/
def WORDSIZE : Nat := 8

/-- C `get_unaligned_word(p)` on a little-endian platform: the 8 bytes
`p[0] … p[7]`, least significant first. -/
def get_unaligned_word (m : Nat → Nat) (p : Nat) : Nat :=
  byteAt m p + byteAt m (p + 1) * 2^8 + byteAt m (p + 2) * 2^16 +
    byteAt m (p + 3) * 2^24 + byteAt m (p + 4) * 2^32 + byteAt m (p + 5) * 2^40 +
    byteAt m (p + 6) * 2^48 + byteAt m (p + 7) * 2^56

/-- C `put_unaligned_word(v, p)` on a little-endian platform: stores the 8
bytes of `v`, least significant first. -/
def put_unaligned_word (m : Nat → Nat) (v p : Nat) : Nat → Nat :=
  fun x =>
    if x = p then v % 256
    else if x = p + 1 then v / 2^8 % 256
    else if x = p + 2 then v / 2^16 % 256
    else if x = p + 3 then v / 2^24 % 256
    else if x = p + 4 then v / 2^32 % 256
    else if x = p + 5 then v / 2^40 % 256
    else if x = p + 6 then v / 2^48 % 256
    else if x = p + 7 then v / 2^56 % 256
    else m x

/-- C `copy_unaligned_word(src, dst)`: the word is loaded in full before
the store, so the load sees the memory prior to the store. -/
def copy_unaligned_word (m : Nat → Nat) (src dst : Nat) : Nat → Nat :=
  put_unaligned_word m (get_unaligned_word m src) dst

/-- C `repeat_byte(b)` with `WORDSIZE == 8`: `v = b; v |= v << 8;
v |= v << 16; v |= v << 32`, in `size_t` (64-bit) arithmetic. -/
def repeat_byte (b : Nat) : Nat :=
  let v0 := b % 256
  let v1 := (v0 ||| v0 <<< 8) % 2^64
  let v2 := (v1 ||| v1 <<< 16) % 2^64
  (v2 ||| v2 <<< 32) % 2^64

/-- The inner `do { copy_unaligned_word(src, dst); src += 8; dst += 8; }
while (dst < end)` loop of the `offset >= WORDSIZE` fast path.  It is
entered only after one unrolled copy has already run and `dst < end` was
checked, and the recursion mirrors the `while` test. -/
def lz_word_loop (m : Nat → Nat) (src dst endp : Nat) : Nat → Nat :=
  let m1 := copy_unaligned_word m src dst
  if dst + 8 < endp then lz_word_loop m1 (src + 8) (dst + 8) endp else m1
termination_by endp - dst
decreasing_by omega

/-- The `do { put_unaligned_word(v, dst); src += 8; dst += 8; }
while (dst < end)` loop of the `offset == 1` fast path (`src` is advanced
by the C code but never read again, so it is not tracked). -/
def lz_rle_loop (m : Nat → Nat) (v dst endp : Nat) : Nat → Nat :=
  let m1 := put_unaligned_word m v dst
  if dst + 8 < endp then lz_rle_loop m1 v (dst + 8) endp else m1
termination_by endp - dst
decreasing_by omega

/-- The `u32` modulus, `2^32` (named so that terms stay compact). -/
def U32 : Nat := 2^32

/-- The body iterations of the final `do { *dst++ = *src++; }
while (--length)` of the bytewise fallback, indexed by the value the `u32`
counter has after the current iteration's decrement — the loop exits when
that value is zero, so `lz_do_while_go m src dst k` performs exactly
`k + 1` copies of one byte each. -/
def lz_do_while_go (m : Nat → Nat) (src dst : Nat) : Nat → (Nat → Nat) × Nat
  | 0 => (writeByte m dst (m src), dst + 1)
  | k + 1 => lz_do_while_go (writeByte m dst (m src)) (src + 1) (dst + 1) k

/-- The full `do { *dst++ = *src++; } while (--length)`: the body runs
once unconditionally, and then for as long as the decremented `u32`
counter `(length - 1) mod 2^32` is nonzero.  If the loop is entered with
`length ≡ 0 (mod 2^32)` the counter underflows and the loop performs
`2^32` iterations.  Returns the memory and the final `dst` cursor. -/
def lz_do_while (m : Nat → Nat) (src dst length : Nat) : (Nat → Nat) × Nat :=
  lz_do_while_go m src dst ((length + (U32 - 1)) % U32)

/-- The bytewise fallback of `lz_copy` (everything after the
`FAST_UNALIGNED_ACCESS` block): two conditionally unrolled copies for
`min_length >= 2` and `min_length >= 3`, each with a `u32` decrement of
`length`, followed by the `do … while` loop. -/
def lz_copy_bytewise (m : Nat → Nat) (src dst length min_length : Nat) :
    (Nat → Nat) × Nat :=
  let s1 : (Nat → Nat) × Nat × Nat × Nat :=
    if 2 ≤ min_length then
      (writeByte m dst (m src), src + 1, dst + 1, (length + (U32 - 1)) % U32)
    else (m, src, dst, length)
  let s2 : (Nat → Nat) × Nat × Nat × Nat :=
    if 3 ≤ min_length then
      (writeByte s1.1 s1.2.2.1 (s1.1 s1.2.1), s1.2.1 + 1, s1.2.2.1 + 1,
        (s1.2.2.2 + (U32 - 1)) % U32)
    else s1
  lz_do_while s2.1 s2.2.1 s2.2.2.1 s2.2.2.2

/-- C `lz_copy(dst, length, offset, bufend, min_length)` with
`FAST_UNALIGNED_ACCESS` enabled and `WORDSIZE = 8`.  The guard
`bufend - end >= (ptrdiff_t)(WORDSIZE - 1)` is written as
`end + 7 ≤ bufend` (equivalent for the signed pointer difference).
Returns the final memory and the returned pointer. -/
def lz_copy (m : Nat → Nat) (dst length offset bufend min_length : Nat) :
    (Nat → Nat) × Nat :=
  let src := dst - offset
  let endp := dst + length
  if endp + 7 ≤ bufend then
    if 8 ≤ offset then
      let m1 := copy_unaligned_word m src dst
      if dst + 8 < endp then (lz_word_loop m1 (src + 8) (dst + 8) endp, endp)
      else (m1, endp)
    else if offset = 1 then
      (lz_rle_loop m (repeat_byte (m (dst - 1))) dst endp, endp)
    else lz_copy_bytewise m src dst length min_length
  else lz_copy_bytewise m src dst length min_length

/-- Modelled from the spec (§4.4, §8): the reference byte-by-byte
left-to-right match copy that `copy_match` must agree with — each step
copies the single byte at `cursor - distance` to `cursor` and advances
the cursor, reading through the bytes the copy itself has already
produced. -/
def copy_match_ref (m : Nat → Nat) (dst offset : Nat) : Nat → (Nat → Nat)
  | 0 => m
  | n + 1 => copy_match_ref (writeByte m dst (m (dst - offset))) (dst + 1) offset n

/-- Plain byte-by-byte copy of `n` bytes from `src` to `dst`, left to
right (`copy_match_ref` with the source cursor made explicit); the
analysis of `lz_copy` is carried out against this function. -/
def byte_copy (m : Nat → Nat) (src dst : Nat) : Nat → (Nat → Nat)
  | 0 => m
  | n + 1 => byte_copy (writeByte m dst (m src)) (src + 1) (dst + 1) n


/-! ### Bit-arithmetic toolkit -/

theorem testBit_eq_false_of_dvd {a : Nat} {k i : Nat} (h : 2^k ∣ a) (hik : i < k) :
    a.testBit i = false := by
  obtain ⟨q, rfl⟩ := h
  have hsplit : 2^k = 2^i * 2^(k - i) := by
    rw [← pow_add]
    congr 1
    omega
  rw [Nat.testBit_to_div_mod, hsplit, Nat.mul_assoc,
    Nat.mul_div_cancel_left _ (Nat.pos_pow_of_pos i (by omega))]
  have : 2^(k - i) * q % 2 = 0 := by
    have : 2^(k - i) = 2 * 2^(k - i - 1) := by
      rw [← pow_succ']
      congr 1
      omega
    rw [this, Nat.mul_assoc]
    exact Nat.mul_mod_right 2 _
  simp [this]

theorem shiftRight_lor_distrib (a b k : Nat) : (a ||| b) >>> k = a >>> k ||| b >>> k := by
  apply Nat.eq_of_testBit_eq
  intro i
  simp [Nat.testBit_shiftRight, Nat.testBit_lor]

theorem lor_eq_add {k a b : Nat} (ha : 2^k ∣ a) (hb : b < 2^k) : a ||| b = a + b := by
  have hpow : 0 < 2^k := Nat.pos_pow_of_pos k (by omega)
  have hdiv : (a ||| b) / 2^k = a / 2^k := by
    have h1 := shiftRight_lor_distrib a b k
    simp only [Nat.shiftRight_eq_div_pow] at h1
    rw [h1, Nat.div_eq_of_lt hb, Nat.or_zero]
  have hmod : (a ||| b) % 2^k = b := by
    apply Nat.eq_of_testBit_eq
    intro i
    rw [Nat.testBit_mod_two_pow, Nat.testBit_lor]
    by_cases hik : i < k
    · rw [testBit_eq_false_of_dvd ha hik]
      simp [hik]
    · have hb2 : b.testBit i = false :=
        Nat.testBit_lt_two_pow (lt_of_lt_of_le hb (Nat.pow_le_pow_right (by omega) (by omega)))
      simp [hik, hb2]
  have := Nat.div_add_mod (a ||| b) (2^k)
  rw [hdiv, hmod] at this
  rw [← this, Nat.mul_div_cancel' ha]

theorem byteAt_lt (d : Nat → Nat) (p : Nat) : byteAt d p < 256 := Nat.mod_lt _ (by omega)

theorem get_unaligned_le16_eq (d : Nat → Nat) (p : Nat) :
    get_unaligned_le16 d p = byteAt d p + byteAt d (p + 1) * 256 := by
  unfold get_unaligned_le16
  rw [Nat.lor_comm, lor_eq_add (show (2:Nat)^8 ∣ byteAt d (p+1) <<< 8 from
    ⟨byteAt d (p+1), by rw [Nat.shiftLeft_eq]; ring⟩) (byteAt_lt d p)]
  rw [Nat.shiftLeft_eq]
  ring

theorem get_unaligned_le16_lt (d : Nat → Nat) (p : Nat) : get_unaligned_le16 d p < 2^16 := by
  rw [get_unaligned_le16_eq]
  have h1 := byteAt_lt d p
  have h2 := byteAt_lt d (p + 1)
  omega


/-! ### Byte-by-byte copy: basic theory -/

theorem byte_copy_outside (n : Nat) : ∀ (m : Nat → Nat) (src dst x : Nat),
    x < dst ∨ dst + n ≤ x → byte_copy m src dst n x = m x := by
  induction n with
  | zero => intro m src dst x _; rfl
  | succ n ih =>
    intro m src dst x h
    simp only [byte_copy]
    rw [ih _ _ _ _ (by omega)]
    simp only [writeByte]
    rw [if_neg (show ¬(x = dst) by omega)]

theorem byte_copy_append (a : Nat) : ∀ (b : Nat) (m : Nat → Nat) (src dst : Nat),
    byte_copy m src dst (a + b) = byte_copy (byte_copy m src dst a) (src + a) (dst + a) b := by
  induction a with
  | zero => intro b m src dst; simp [byte_copy]
  | succ a ih =>
    intro b m src dst
    have e1 : a + 1 + b = (a + b) + 1 := by omega
    rw [e1]
    simp only [byte_copy]
    rw [ih]
    have e2 : src + 1 + a = src + (a + 1) := by omega
    have e3 : dst + 1 + a = dst + (a + 1) := by omega
    rw [e2, e3]

theorem byte_copy_nonoverlap (n : Nat) : ∀ (m : Nat → Nat) (src dst x : Nat),
    src + n ≤ dst →
    byte_copy m src dst n x =
      if dst ≤ x ∧ x < dst + n then byteAt m (src + (x - dst)) else m x := by
  induction n with
  | zero => intro m src dst x _; rw [if_neg (by omega)]; rfl
  | succ n ih =>
    intro m src dst x h
    simp only [byte_copy]
    rw [ih _ _ _ _ (by omega)]
    by_cases hx : dst + 1 ≤ x ∧ x < dst + 1 + n
    · rw [if_pos hx, if_pos (show dst ≤ x ∧ x < dst + (n + 1) by omega)]
      have harg : src + 1 + (x - (dst + 1)) = src + (x - dst) := by omega
      rw [harg]
      simp only [byteAt, writeByte]
      rw [if_neg (show ¬(src + (x - dst) = dst) by omega)]
    · rw [if_neg hx]
      by_cases hx2 : x = dst
      · rw [if_pos (show dst ≤ x ∧ x < dst + (n + 1) by omega), hx2]
        simp [writeByte, byteAt]
      · rw [if_neg (show ¬(dst ≤ x ∧ x < dst + (n + 1)) by omega)]
        simp only [writeByte]
        rw [if_neg hx2]

theorem byte_copy_offset_one (n : Nat) : ∀ (m : Nat → Nat) (src dst x : Nat),
    src + 1 = dst →
    byte_copy m src dst n x = if dst ≤ x ∧ x < dst + n then byteAt m src else m x := by
  induction n with
  | zero => intro m src dst x _; rw [if_neg (by omega)]; rfl
  | succ n ih =>
    intro m src dst x h
    simp only [byte_copy]
    rw [ih _ _ _ _ (by omega)]
    have hsrc : byteAt (writeByte m dst (m src)) (src + 1) = byteAt m src := by
      simp only [byteAt, writeByte, h, if_pos rfl]
      exact Nat.mod_mod_of_dvd _ (dvd_refl 256)
    by_cases hx : dst + 1 ≤ x ∧ x < dst + 1 + n
    · rw [if_pos hx, if_pos (show dst ≤ x ∧ x < dst + (n + 1) by omega), hsrc]
    · rw [if_neg hx]
      by_cases hx2 : x = dst
      · rw [if_pos (show dst ≤ x ∧ x < dst + (n + 1) by omega), hx2]
        simp [writeByte, byteAt]
      · rw [if_neg (show ¬(dst ≤ x ∧ x < dst + (n + 1)) by omega)]
        simp only [writeByte]
        rw [if_neg hx2]

theorem byte_copy_prefix (m : Nat → Nat) (src dst n N x : Nat) (h : n ≤ N)
    (hx : x < dst + n) : byte_copy m src dst N x = byte_copy m src dst n x := by
  have e : N = n + (N - n) := by omega
  rw [e, byte_copy_append]
  rw [byte_copy_outside _ _ _ _ _ (Or.inl (by omega))]

theorem copy_match_ref_eq (n : Nat) : ∀ (m : Nat → Nat) (dst offset : Nat), offset ≤ dst →
    copy_match_ref m dst offset n = byte_copy m (dst - offset) dst n := by
  induction n with
  | zero => intro m dst offset _; rfl
  | succ n ih =>
    intro m dst offset h
    simp only [copy_match_ref, byte_copy]
    rw [ih _ _ _ (by omega)]
    have e : dst + 1 - offset = dst - offset + 1 := by omega
    rw [e]

/-! ### The word-at-a-time primitives reduced to byte copies -/

theorem copy_unaligned_word_eq (m : Nat → Nat) (src dst x : Nat) :
    copy_unaligned_word m src dst x =
      if dst ≤ x ∧ x < dst + 8 then byteAt m (src + (x - dst)) else m x := by
  have h0 := byteAt_lt m src
  have h1 := byteAt_lt m (src + 1)
  have h2 := byteAt_lt m (src + 2)
  have h3 := byteAt_lt m (src + 3)
  have h4 := byteAt_lt m (src + 4)
  have h5 := byteAt_lt m (src + 5)
  have h6 := byteAt_lt m (src + 6)
  have h7 := byteAt_lt m (src + 7)
  simp only [copy_unaligned_word, put_unaligned_word, get_unaligned_word]
  rcases Nat.lt_or_ge x dst with hx | hx
  · rw [if_neg (show ¬(dst ≤ x ∧ x < dst + 8) by omega)]
    split_ifs <;> omega
  · rcases Nat.lt_or_ge x (dst + 8) with hx2 | hx2
    · have hc : x = dst ∨ x = dst + 1 ∨ x = dst + 2 ∨ x = dst + 3 ∨ x = dst + 4 ∨
          x = dst + 5 ∨ x = dst + 6 ∨ x = dst + 7 := by omega
      rw [if_pos (show dst ≤ x ∧ x < dst + 8 by omega)]
      rcases hc with rfl | rfl | rfl | rfl | rfl | rfl | rfl | rfl <;>
        simp only [Nat.add_sub_cancel_left, Nat.sub_self, Nat.add_zero] <;>
        split_ifs <;> omega
    · rw [if_neg (show ¬(dst ≤ x ∧ x < dst + 8) by omega)]
      split_ifs <;> omega

theorem copy_word_eq_byte_copy (m : Nat → Nat) (src dst : Nat) (h : src + 8 ≤ dst) :
    copy_unaligned_word m src dst = byte_copy m src dst 8 := by
  funext x
  rw [copy_unaligned_word_eq, byte_copy_nonoverlap 8 _ _ _ _ h]

theorem repeat_byte_mod (b : Nat) : repeat_byte b = repeat_byte (b % 256) := by
  have e : b % 256 % 256 = b % 256 := by omega
  simp only [repeat_byte, e]

theorem repeat_byte_bytes : ∀ c, c < 256 →
    repeat_byte c % 256 = c ∧ repeat_byte c / 2^8 % 256 = c ∧ repeat_byte c / 2^16 % 256 = c ∧
    repeat_byte c / 2^24 % 256 = c ∧ repeat_byte c / 2^32 % 256 = c ∧
    repeat_byte c / 2^40 % 256 = c ∧ repeat_byte c / 2^48 % 256 = c ∧
    repeat_byte c / 2^56 % 256 = c := by decide

theorem put_rle_eq_byte_copy (m : Nat → Nat) (dst b : Nat) (h1 : 1 ≤ dst)
    (hb : m (dst - 1) % 256 = b % 256) :
    put_unaligned_word m (repeat_byte b) dst = byte_copy m (dst - 1) dst 8 := by
  funext x
  rw [byte_copy_offset_one 8 _ _ _ _ (by omega)]
  obtain ⟨e0, e1, e2, e3, e4, e5, e6, e7⟩ := repeat_byte_bytes (b % 256) (by omega)
  have hba : byteAt m (dst - 1) = b % 256 := by
    simp only [byteAt]
    omega
  rw [repeat_byte_mod]
  simp only [put_unaligned_word, e0, e1, e2, e3, e4, e5, e6, e7, hba]
  split_ifs <;> omega


/-! ### The three copy loops of lz_copy -/

theorem lz_word_loop_eq (endp : Nat) :
    ∀ (k : Nat) (m : Nat → Nat) (src dst : Nat), endp - dst ≤ k → src + 8 ≤ dst →
    dst < endp →
    lz_word_loop m src dst endp = byte_copy m src dst (8 * ((endp - dst + 7) / 8)) := by
  intro k
  induction k with
  | zero => intro m src dst h1 h2 h3; omega
  | succ k ih =>
    intro m src dst h1 h2 h3
    rw [lz_word_loop]
    rw [copy_word_eq_byte_copy m src dst h2]
    by_cases hcont : dst + 8 < endp
    · rw [if_pos hcont]
      rw [ih _ _ _ (by omega) (by omega) (by omega)]
      have harith : 8 * ((endp - dst + 7) / 8) = 8 + 8 * ((endp - (dst + 8) + 7) / 8) := by
        omega
      rw [harith, byte_copy_append]
    · rw [if_neg hcont]
      have harith : 8 * ((endp - dst + 7) / 8) = 8 := by omega
      rw [harith]

theorem lz_rle_loop_eq (endp : Nat) :
    ∀ (k : Nat) (m : Nat → Nat) (dst b : Nat), endp - dst ≤ k → 1 ≤ dst → dst < endp →
    m (dst - 1) % 256 = b % 256 →
    lz_rle_loop m (repeat_byte b) dst endp =
      byte_copy m (dst - 1) dst (8 * ((endp - dst + 7) / 8)) := by
  intro k
  induction k with
  | zero => intro m dst b h1 h2 h3 h4; omega
  | succ k ih =>
    intro m dst b h1 h2 h3 h4
    rw [lz_rle_loop]
    rw [put_rle_eq_byte_copy m dst b h2 h4]
    by_cases hcont : dst + 8 < endp
    · rw [if_pos hcont]
      have hnext : (byte_copy m (dst - 1) dst 8) (dst + 8 - 1) % 256 = b % 256 := by
        rw [byte_copy_offset_one 8 _ _ _ _ (by omega)]
        rw [if_pos (by omega)]
        simp only [byteAt]
        omega
      rw [ih _ _ _ (by omega) (by omega) (by omega) hnext]
      have harith : 8 * ((endp - dst + 7) / 8) = 8 + 8 * ((endp - (dst + 8) + 7) / 8) := by
        omega
      rw [harith, byte_copy_append]
      have e : dst - 1 + 8 = dst + 8 - 1 := by omega
      rw [e]
    · rw [if_neg hcont]
      have harith : 8 * ((endp - dst + 7) / 8) = 8 := by omega
      rw [harith]

theorem lz_do_while_go_eq (k : Nat) : ∀ (m : Nat → Nat) (src dst : Nat),
    lz_do_while_go m src dst k = (byte_copy m src dst (k + 1), dst + (k + 1)) := by
  induction k with
  | zero => intro m src dst; simp [lz_do_while_go, byte_copy]
  | succ k ih =>
    intro m src dst
    simp only [lz_do_while_go]
    rw [ih]
    have e : byte_copy m src dst (k + 1 + 1) =
        byte_copy (writeByte m dst (m src)) (src + 1) (dst + 1) (k + 1) := rfl
    rw [e, Prod.mk.injEq]
    exact ⟨rfl, by omega⟩

theorem lz_do_while_eq (m : Nat → Nat) (src dst len : Nat) (h1 : 1 ≤ len)
    (h32 : len < 2^32) :
    lz_do_while m src dst len = (byte_copy m src dst len, dst + len) := by
  have e : (len + (U32 - 1)) % U32 = len - 1 := by simp only [U32]; omega
  rw [lz_do_while, e, lz_do_while_go_eq]
  have e2 : len - 1 + 1 = len := by omega
  rw [e2]

theorem lz_copy_bytewise_eq (m : Nat → Nat) (src dst length min_length : Nat)
    (hlen : 1 ≤ length) (h32 : length < 2^32)
    (h2 : 2 ≤ min_length → 2 ≤ length) (h3 : 3 ≤ min_length → 3 ≤ length) :
    lz_copy_bytewise m src dst length min_length =
      (byte_copy m src dst length, dst + length) := by
  by_cases hm2 : 2 ≤ min_length
  · by_cases hm3 : 3 ≤ min_length
    · have hl3 : 3 ≤ length := h3 hm3
      simp only [lz_copy_bytewise, if_pos hm2, if_pos hm3]
      have e1 : (length + (U32 - 1)) % U32 = length - 1 := by simp only [U32]; omega
      have e2 : (length - 1 + (U32 - 1)) % U32 = length - 2 := by simp only [U32]; omega
      simp only [e1, e2]
      rw [lz_do_while_eq _ _ _ _ (by omega) (by omega)]
      obtain ⟨l2, rfl⟩ : ∃ l2, length = l2 + 2 := ⟨length - 2, by omega⟩
      simp only [byte_copy, Nat.add_sub_cancel]
      rw [Prod.mk.injEq]
      constructor
      · have e3 : l2 + 2 - 1 = l2 + 1 := by omega
        have e4 : l2 + 1 - 1 = l2 := by omega
        simp only [e3, e4]
      · omega
    · have hl2 : 2 ≤ length := h2 hm2
      simp only [lz_copy_bytewise, if_pos hm2, if_neg hm3]
      have e1 : (length + (U32 - 1)) % U32 = length - 1 := by simp only [U32]; omega
      simp only [e1]
      rw [lz_do_while_eq _ _ _ _ (by omega) (by omega)]
      obtain ⟨l2, rfl⟩ : ∃ l2, length = l2 + 1 := ⟨length - 1, by omega⟩
      simp only [byte_copy, Nat.add_sub_cancel]
      rw [Prod.mk.injEq]
      exact ⟨rfl, by omega⟩
  · have hm3 : ¬ 3 ≤ min_length := by omega
    simp only [lz_copy_bytewise, if_neg hm2, if_neg hm3]
    rw [lz_do_while_eq _ _ _ _ hlen h32]


theorem lz_do_while_go_frame (k : Nat) : ∀ (m : Nat → Nat) (src dst x : Nat), x < dst →
    (lz_do_while_go m src dst k).1 x = m x := by
  induction k with
  | zero =>
    intro m src dst x h
    simp only [lz_do_while_go, writeByte]
    rw [if_neg (by omega)]
  | succ k ih =>
    intro m src dst x h
    simp only [lz_do_while_go]
    rw [ih _ _ _ _ (by omega)]
    simp only [writeByte]
    rw [if_neg (by omega)]

/-- C1 (amended with `min_length ≤ length`): for every call to `lz_copy`
with `1 ≤ offset ≤ dst` (the match source does not underrun the buffer),
`1 ≤ length < 2^32`, `min_length ≤ length`, and the write of `length`
bytes not passing `bufend`, `lz_copy` writes at `dst .. dst+length-1`
exactly the bytes the reference byte-by-byte left-to-right copy from
`dst - offset` writes (a periodic repeat when `offset < length`, a run of
one repeated byte when `offset = 1`), and returns `dst + length`. -/
theorem lz_copy_writes_reference_bytes (m : Nat → Nat)
    (dst length offset bufend min_length : Nat)
    (hoff1 : 1 ≤ offset) (hoffd : offset ≤ dst) (hlen1 : 1 ≤ length)
    (hlen32 : length < 2^32) (hmin : min_length ≤ length)
    (hroom : dst + length ≤ bufend) :
    (lz_copy m dst length offset bufend min_length).2 = dst + length ∧
    ∀ x, dst ≤ x → x < dst + length →
      (lz_copy m dst length offset bufend min_length).1 x =
        copy_match_ref m dst offset length x := by
  rw [copy_match_ref_eq length m dst offset hoffd]
  simp only [lz_copy]
  by_cases hfast : dst + length + 7 ≤ bufend
  · rw [if_pos hfast]
    by_cases hw : 8 ≤ offset
    · rw [if_pos hw]
      have hno : (dst - offset) + 8 ≤ dst := by omega
      rw [copy_word_eq_byte_copy _ _ _ hno]
      by_cases hcont : dst + 8 < dst + length
      · rw [if_pos hcont]
        rw [lz_word_loop_eq (dst + length) (dst + length) _ _ _ (by omega) (by omega)
          (by omega)]
        rw [← byte_copy_append]
        refine ⟨rfl, ?_⟩
        intro x hx1 hx2
        have hcopy := byte_copy_prefix m (dst - offset) dst length
          (8 + 8 * ((dst + length - (dst + 8) + 7) / 8)) x (by omega) hx2
        exact hcopy
      · rw [if_neg hcont]
        refine ⟨rfl, ?_⟩
        intro x hx1 hx2
        have hcopy := byte_copy_prefix m (dst - offset) dst length 8 x (by omega) hx2
        exact hcopy
    · rw [if_neg hw]
      by_cases ho1 : offset = 1
      · subst ho1
        rw [if_pos rfl]
        rw [lz_rle_loop_eq (dst + length) (dst + length) m dst (m (dst - 1)) (by omega)
          (by omega) (by omega) rfl]
        refine ⟨rfl, ?_⟩
        intro x hx1 hx2
        have hcopy := byte_copy_prefix m (dst - 1) dst length
          (8 * ((dst + length - dst + 7) / 8)) x (by omega) hx2
        exact hcopy
      · rw [if_neg ho1]
        rw [lz_copy_bytewise_eq m (dst - offset) dst length min_length hlen1 hlen32
          (fun _ => by omega) (fun _ => by omega)]
        exact ⟨rfl, fun x _ _ => rfl⟩
  · rw [if_neg hfast]
    rw [lz_copy_bytewise_eq m (dst - offset) dst length min_length hlen1 hlen32
      (fun _ => by omega) (fun _ => by omega)]
    exact ⟨rfl, fun x _ _ => rfl⟩

/-- C1 witness at a concrete input. -/
theorem lz_copy_writes_reference_bytes_witness :
    (lz_copy (fun i => i) 4 2 1 20 1).2 = 4 + 2 ∧
    (lz_copy (fun i => i) 4 2 1 20 1).1 5 = copy_match_ref (fun i => i) 4 1 2 5 :=
  ⟨(lz_copy_writes_reference_bytes (fun i => i) 4 2 1 20 1 (by norm_num) (by norm_num)
      (by norm_num) (by norm_num) (by norm_num) (by norm_num)).1,
   (lz_copy_writes_reference_bytes (fun i => i) 4 2 1 20 1 (by norm_num) (by norm_num)
      (by norm_num) (by norm_num) (by norm_num) (by norm_num)).2 5 (by norm_num) (by norm_num)⟩

/-- C1 counterexample to the claim as stated: with `min_length = 3` but
`length = 1` (all the claim's stated preconditions hold: `offset = 2` with
two bytes already emitted, `length ≥ 1`, `dst + length ≤ bufend`), the
bytewise fallback's `u32` length counter underflows and `lz_copy` does not
return `dst + length`. -/
theorem lz_copy_cex_returns_wrong_cursor : (lz_copy (fun _ => 0) 8 1 2 9 3).2 ≠ 8 + 1 := by
  simp only [lz_copy, lz_copy_bytewise]
  rw [if_neg (show ¬(8 + 1 + 7 ≤ 9) by norm_num),
    if_pos (show (2:Nat) ≤ 3 by norm_num), if_pos (show (3:Nat) ≤ 3 by norm_num)]
  rw [lz_do_while, lz_do_while_go_eq]
  dsimp only
  omega

/-- C2 (amended with `min_length ≤ length`): under the same validated
preconditions, no byte at `bufend` or beyond is ever written, on all three
paths (including the word-at-a-time fast path, which may copy more bytes
than the match length but stays below `bufend`). -/
theorem lz_copy_never_writes_past_bufend (m : Nat → Nat)
    (dst length offset bufend min_length : Nat)
    (hoff1 : 1 ≤ offset) (hoffd : offset ≤ dst) (hlen1 : 1 ≤ length)
    (hlen32 : length < 2^32) (hmin : min_length ≤ length)
    (hroom : dst + length ≤ bufend) :
    ∀ x, bufend ≤ x → (lz_copy m dst length offset bufend min_length).1 x = m x := by
  intro x hx
  simp only [lz_copy]
  by_cases hfast : dst + length + 7 ≤ bufend
  · rw [if_pos hfast]
    by_cases hw : 8 ≤ offset
    · rw [if_pos hw]
      have hno : (dst - offset) + 8 ≤ dst := by omega
      rw [copy_word_eq_byte_copy _ _ _ hno]
      by_cases hcont : dst + 8 < dst + length
      · rw [if_pos hcont]
        rw [lz_word_loop_eq (dst + length) (dst + length) _ _ _ (by omega) (by omega)
          (by omega)]
        rw [← byte_copy_append]
        exact byte_copy_outside _ _ _ _ _ (Or.inr (by omega))
      · rw [if_neg hcont]
        exact byte_copy_outside _ _ _ _ _ (Or.inr (by omega))
    · rw [if_neg hw]
      by_cases ho1 : offset = 1
      · subst ho1
        rw [if_pos rfl]
        rw [lz_rle_loop_eq (dst + length) (dst + length) m dst (m (dst - 1)) (by omega)
          (by omega) (by omega) rfl]
        exact byte_copy_outside _ _ _ _ _ (Or.inr (by omega))
      · rw [if_neg ho1]
        rw [lz_copy_bytewise_eq m (dst - offset) dst length min_length hlen1 hlen32
          (fun _ => by omega) (fun _ => by omega)]
        exact byte_copy_outside _ _ _ _ _ (Or.inr (by omega))
  · rw [if_neg hfast]
    rw [lz_copy_bytewise_eq m (dst - offset) dst length min_length hlen1 hlen32
      (fun _ => by omega) (fun _ => by omega)]
    exact byte_copy_outside _ _ _ _ _ (Or.inr (by omega))

/-- C2 witness at a concrete input (the fast path runs and the byte at
`bufend` is untouched). -/
theorem lz_copy_never_writes_past_bufend_witness :
    (lz_copy (fun i => i) 4 2 1 20 1).1 20 = 20 :=
  lz_copy_never_writes_past_bufend (fun i => i) 4 2 1 20 1 (by norm_num) (by norm_num)
    (by norm_num) (by norm_num) (by norm_num) (by norm_num) 20 (by norm_num)



/-- Symbolic one-step reduction of the bytewise fallback at
`length = 1, min_length = 3`: both unrolled copies run and the `u32`
counter decrements twice before the `do … while` loop starts. -/
theorem lz_copy_bytewise_three (m : Nat → Nat) (src dst : Nat) :
    lz_copy_bytewise m src dst 1 3 =
      lz_do_while (writeByte (writeByte m dst (m src)) (dst + 1)
          ((writeByte m dst (m src)) (src + 1))) (src + 2) (dst + 2)
        (((1 + (U32 - 1)) % U32 + (U32 - 1)) % U32) := by
  simp only [lz_copy_bytewise]
  rw [if_pos (show (2:Nat) ≤ 3 by norm_num), if_pos (show (3:Nat) ≤ 3 by norm_num)]

/-- C2 counterexample to the claim as stated: with `min_length = 3`,
`length = 1`, `offset = 2`, `bufend = dst + length = 9`, all stated
preconditions hold (source in bounds, write of `length` bytes in bounds,
`length ≥ 1`), yet the byte at address `bufend = 9` is overwritten (with
byte 5 copied from address 7) by the underflowing bytewise loop. -/
theorem lz_copy_cex_writes_past_bufend :
    (lz_copy (fun x => if x = 7 then 5 else 0) 8 1 2 9 3).1 9 = 5 ∧
    (fun x : Nat => if x = 7 then (5 : Nat) else 0) 9 = 0 := by
  refine ⟨?_, by norm_num⟩
  have hred : lz_copy (fun x => if x = 7 then (5:Nat) else 0) 8 1 2 9 3 =
      lz_copy_bytewise (fun x => if x = 7 then (5:Nat) else 0) 6 8 1 3 := by
    simp only [lz_copy]
    rw [if_neg (show ¬(8 + 1 + 7 ≤ 9) by norm_num)]
  rw [hred, lz_copy_bytewise_three, lz_do_while]
  rw [lz_do_while_go_frame _ _ _ _ _ (show (9:Nat) < 8 + 2 by norm_num)]
  norm_num [writeByte]


/-- C9: the bytewise fallback has the unstated precondition
`min_length ≤ length` when `min_length ∈ {2, 3}`: under it the path
writes exactly `length` bytes (everything outside `dst .. dst+length-1`
is untouched) and returns `dst + length`; and at the concrete call
`min_length = 3, length = 1` (the spec's stated `length ≥ 1` holds) the
`u32` length counter underflows, the loop does not stop at
`dst + length = 9` — it writes the byte at address 9 and returns
`2^32 + 9` — so `length ≥ 1` alone is not a sufficient precondition. -/
theorem lz_copy_bytewise_min_length_contract (m : Nat → Nat)
    (src dst length min_length : Nat)
    (hmin : min_length = 2 ∨ min_length = 3) (hlen : min_length ≤ length)
    (h32 : length < 2^32) :
    ((lz_copy_bytewise m src dst length min_length).2 = dst + length ∧
      ∀ x, x < dst ∨ dst + length ≤ x →
        (lz_copy_bytewise m src dst length min_length).1 x = m x) ∧
    ((lz_copy_bytewise (fun a => if a = 7 then 7 else 0) 6 8 1 3).2 = 2^32 + 9 ∧
      (lz_copy_bytewise (fun a => if a = 7 then 7 else 0) 6 8 1 3).1 9 = 7) := by
  constructor
  · rw [lz_copy_bytewise_eq m src dst length min_length (by omega) h32
      (fun _ => by omega) (fun _ => by omega)]
    exact ⟨rfl, fun x hx => byte_copy_outside _ _ _ _ _ hx⟩
  · rw [lz_copy_bytewise_three, lz_do_while]
    constructor
    · rw [lz_do_while_go_eq]
      dsimp only
      have e : ((((1 + (U32 - 1)) % U32 + (U32 - 1)) % U32 + (U32 - 1)) % U32) =
          U32 - 2 := by
        simp only [U32]
        omega
      rw [e]
      simp only [U32]
      omega
    · rw [lz_do_while_go_frame _ _ _ _ _ (show (9:Nat) < 8 + 2 by norm_num)]
      norm_num [writeByte]

/-- C9 witness at a concrete input. -/
theorem lz_copy_bytewise_min_length_contract_witness :
    (lz_copy_bytewise (fun i => i) 1 5 2 2).2 = 5 + 2 ∧
    (lz_copy_bytewise (fun i => i) 1 5 2 2).1 4 = 4 :=
  ⟨(lz_copy_bytewise_min_length_contract (fun i => i) 1 5 2 2 (Or.inl rfl) (by norm_num)
      (by norm_num)).1.1,
   (lz_copy_bytewise_min_length_contract (fun i => i) 1 5 2 2 (Or.inl rfl) (by norm_num)
      (by norm_num)).1.2 4 (Or.inl (by norm_num))⟩


/-! ### Bit-stream reader: the refill operation -/

theorem add_dvd_le {d a b : Nat} (h : a < b) (ha : d ∣ a) (hb : d ∣ b) : a + d ≤ b := by
  obtain ⟨qa, rfl⟩ := ha
  obtain ⟨qb, rfl⟩ := hb
  have hq : qa < qb := Nat.lt_of_mul_lt_mul_left h
  calc d * qa + d = d * (qa + 1) := by ring
  _ ≤ d * qb := Nat.mul_le_mul_left d hq

/-- The refill's bit-or is a plain addition: the accumulator's bits live
strictly above the 16 freshly loaded bits, so no bits collide and the
`% 2^32` is a no-op. -/
theorem ensure_or_eq_add {bitbuf u bl : Nat} (hbl : bl ≤ 15) (hbb : bitbuf < 2^32)
    (hlow : bitbuf % 2^(32 - bl) = 0) (hu : u < 2^16) :
    (bitbuf ||| u <<< (16 - bl)) % 2^32 = bitbuf + u * 2^(16 - bl) := by
  have hdvd : 2^(32 - bl) ∣ bitbuf := Nat.dvd_of_mod_eq_zero hlow
  have hsplit : (2:Nat)^(32 - bl) = 2^16 * 2^(16 - bl) := by
    rw [← pow_add]
    congr 1
    omega
  have hb : u * 2^(16 - bl) < 2^(32 - bl) := by
    rw [hsplit]
    have h1 : u * 2^(16 - bl) ≤ 65535 * 2^(16 - bl) :=
      Nat.mul_le_mul_right _ (by omega)
    have h2 : (0:Nat) < 2^(16 - bl) := Nat.pos_pow_of_pos _ (by omega)
    have h3 : (2:Nat)^16 = 65536 := by norm_num
    rw [h3]
    omega
  rw [Nat.shiftLeft_eq, lor_eq_add hdvd hb]
  apply Nat.mod_eq_of_lt
  rcases Nat.eq_zero_or_pos bitbuf with hz | hpos
  · have h2 : (2:Nat)^(32 - bl) ≤ 2^32 := Nat.pow_le_pow_right (by omega) (by omega)
    omega
  · have hle : bitbuf + 2^(32 - bl) ≤ 2^32 :=
      add_dvd_le hbb hdvd (pow_dvd_pow 2 (by omega))
    omega

/-- C4: for every bitstream state with `bitsleft < 32`, a `< 2^32`
accumulator whose low `32 - bitsleft` bits are zero, and every
`num_bits ≤ 16`, `bitstream_ensure_bits` always succeeds and afterwards
`bitsleft ≥ num_bits`; if fewer than `num_bits` bits were buffered it
appends exactly the next little-endian 16-bit input unit below the
existing bits (the accumulator gains that unit scaled by
`2^(16 - bitsleft)` and the cursor advances by two) when at least 2 input
bytes remain, and otherwise appends 16 zero bits (the accumulator is
unchanged, `bitsleft` grows by 16) without moving the cursor. -/
theorem bitstream_ensure_bits_spec (is : input_bitstream) (num_bits : Nat)
    (hn : num_bits ≤ 16) (hbl : is.bitsleft < 32) (hbb : is.bitbuf < 2^32)
    (hlow : is.bitbuf % 2^(32 - is.bitsleft) = 0) :
    num_bits ≤ (bitstream_ensure_bits is num_bits).bitsleft ∧
    (is.bitsleft < num_bits → is.next + 2 ≤ is.len →
      (bitstream_ensure_bits is num_bits).bitbuf =
          is.bitbuf + get_unaligned_le16 is.data is.next * 2^(16 - is.bitsleft) ∧
        (bitstream_ensure_bits is num_bits).bitsleft = is.bitsleft + 16 ∧
        (bitstream_ensure_bits is num_bits).next = is.next + 2) ∧
    (is.bitsleft < num_bits → ¬(is.next + 2 ≤ is.len) →
      (bitstream_ensure_bits is num_bits).bitbuf = is.bitbuf ∧
        (bitstream_ensure_bits is num_bits).bitsleft = is.bitsleft + 16 ∧
        (bitstream_ensure_bits is num_bits).next = is.next) ∧
    (num_bits ≤ is.bitsleft → bitstream_ensure_bits is num_bits = is) := by
  by_cases hlt : is.bitsleft < num_bits
  · by_cases hroom : is.next + 2 ≤ is.len
    · have hres : bitstream_ensure_bits is num_bits =
          { is with
            bitbuf := (is.bitbuf |||
              get_unaligned_le16 is.data is.next <<< (16 - is.bitsleft)) % 2^32,
            next := is.next + 2,
            bitsleft := (is.bitsleft + 16) % 2^32 } := by
        simp only [bitstream_ensure_bits, if_pos hlt, if_pos hroom]
      have hor := @ensure_or_eq_add is.bitbuf (get_unaligned_le16 is.data is.next)
        is.bitsleft (by omega) hbb hlow (get_unaligned_le16_lt _ _)
      rw [hres]
      dsimp only
      refine ⟨by omega, fun _ _ => ⟨hor, by omega, rfl⟩, fun _ hc => absurd hroom hc,
        fun hc => absurd hc (by omega)⟩
    · have hres : bitstream_ensure_bits is num_bits =
          { is with bitsleft := (is.bitsleft + 16) % 2^32 } := by
        simp only [bitstream_ensure_bits, if_pos hlt, if_neg hroom]
      rw [hres]
      dsimp only
      refine ⟨by omega, fun _ hc => absurd hc hroom, fun _ _ => ⟨rfl, by omega, rfl⟩,
        fun hc => absurd hc (by omega)⟩
  · have hres : bitstream_ensure_bits is num_bits = is := by
      simp only [bitstream_ensure_bits, if_neg hlt]
    rw [hres]
    exact ⟨by omega, fun hc => absurd hc hlt, fun hc => absurd hc hlt, fun _ => rfl⟩

/-- C4 witness at a concrete input (two bytes 0x34 0x12 available,
refill happens). -/
theorem bitstream_ensure_bits_spec_witness :
    5 ≤ (bitstream_ensure_bits ⟨0, 0, 0, (fun i => if i = 0 then 52 else 18), 2⟩ 5).bitsleft ∧
    (bitstream_ensure_bits ⟨0, 0, 0, (fun i => if i = 0 then 52 else 18), 2⟩ 5).next = 0 + 2 :=
  ⟨(bitstream_ensure_bits_spec ⟨0, 0, 0, (fun i => if i = 0 then 52 else 18), 2⟩ 5
      (by norm_num) (by norm_num) (by norm_num) (by norm_num)).1,
   ((bitstream_ensure_bits_spec ⟨0, 0, 0, (fun i => if i = 0 then 52 else 18), 2⟩ 5
      (by norm_num) (by norm_num) (by norm_num) (by norm_num)).2.1 (by norm_num)
      (by norm_num)).2.2⟩


/-! ### Cursor bounds and in-bounds reading for every bitstream operation -/

/-- Two bitstream states with equal accumulator, bit count, cursor and
length whose input bytes agree at every index below the end pointer (the
bytes at or past the end may differ arbitrarily — an operation that never
reads past the end must produce related results from related states). -/
def sameBelow (is1 is2 : input_bitstream) : Prop :=
  is1.bitbuf = is2.bitbuf ∧ is1.bitsleft = is2.bitsleft ∧ is1.next = is2.next ∧
    is1.len = is2.len ∧ ∀ i, i < is1.len → is1.data i = is2.data i

theorem ensure_len (is : input_bitstream) (n : Nat) :
    (bitstream_ensure_bits is n).len = is.len := by
  simp only [bitstream_ensure_bits]
  split_ifs <;> rfl

theorem ensure_data (is : input_bitstream) (n : Nat) :
    (bitstream_ensure_bits is n).data = is.data := by
  simp only [bitstream_ensure_bits]
  split_ifs <;> rfl

theorem ensure_next_le (is : input_bitstream) (n : Nat) (h : is.next ≤ is.len) :
    (bitstream_ensure_bits is n).next ≤ is.len := by
  simp only [bitstream_ensure_bits]
  split_ifs with h1 h2
  · dsimp only
    omega
  · dsimp only
    omega
  · exact h

theorem ensure_sameBelow {is1 is2 : input_bitstream} (n : Nat) (h : sameBelow is1 is2) :
    sameBelow (bitstream_ensure_bits is1 n) (bitstream_ensure_bits is2 n) := by
  obtain ⟨hb, hl, hn, hlen, hd⟩ := h
  simp only [bitstream_ensure_bits, ← hb, ← hl, ← hn, ← hlen]
  split_ifs with h1 h2
  · have e16 : get_unaligned_le16 is1.data is1.next = get_unaligned_le16 is2.data is1.next := by
      simp only [get_unaligned_le16, byteAt]
      rw [hd _ (by omega), hd _ (by omega)]
    exact ⟨by rw [e16], rfl, rfl, rfl, hd⟩
  · exact ⟨rfl, rfl, rfl, rfl, hd⟩
  · exact ⟨hb, hl, hn, hlen, hd⟩

theorem peek_sameBelow {is1 is2 : input_bitstream} (n : Nat) (h : sameBelow is1 is2) :
    bitstream_peek_bits is1 n = bitstream_peek_bits is2 n := by
  obtain ⟨hb, _, _, _, _⟩ := h
  simp only [bitstream_peek_bits, hb]

theorem remove_sameBelow {is1 is2 : input_bitstream} (n : Nat) (h : sameBelow is1 is2) :
    sameBelow (bitstream_remove_bits is1 n) (bitstream_remove_bits is2 n) := by
  obtain ⟨hb, hl, hn, hlen, hd⟩ := h
  exact ⟨by simp only [bitstream_remove_bits, hb], by simp only [bitstream_remove_bits, hl],
    hn, hlen, hd⟩

theorem read_byte_spec {is1 is2 : input_bitstream} (h : sameBelow is1 is2)
    (hinv : is1.next ≤ is1.len) :
    (bitstream_read_byte is1).1 = (bitstream_read_byte is2).1 ∧
      sameBelow (bitstream_read_byte is1).2 (bitstream_read_byte is2).2 := by
  obtain ⟨hb, hl, hn, hlen, hd⟩ := h
  simp only [bitstream_read_byte, ← hn, ← hlen]
  by_cases hend : is1.len = is1.next
  · rw [if_pos hend, if_pos hend]
    exact ⟨rfl, hb, hl, hn, hlen, hd⟩
  · rw [if_neg hend, if_neg hend]
    refine ⟨?_, hb, hl, rfl, rfl, hd⟩
    simp only [byteAt]
    rw [hd _ (by omega)]

theorem read_u16_spec {is1 is2 : input_bitstream} (h : sameBelow is1 is2) :
    (bitstream_read_u16 is1).1 = (bitstream_read_u16 is2).1 ∧
      sameBelow (bitstream_read_u16 is1).2 (bitstream_read_u16 is2).2 := by
  obtain ⟨hb, hl, hn, hlen, hd⟩ := h
  simp only [bitstream_read_u16, ← hn, ← hlen]
  by_cases hend : is1.len < is1.next + 2
  · rw [if_pos hend, if_pos hend]
    exact ⟨rfl, hb, hl, hn, hlen, hd⟩
  · rw [if_neg hend, if_neg hend]
    refine ⟨?_, hb, hl, rfl, rfl, hd⟩
    simp only [get_unaligned_le16, byteAt]
    rw [hd _ (by omega), hd _ (by omega)]

theorem read_u32_spec {is1 is2 : input_bitstream} (h : sameBelow is1 is2) :
    (bitstream_read_u32 is1).1 = (bitstream_read_u32 is2).1 ∧
      sameBelow (bitstream_read_u32 is1).2 (bitstream_read_u32 is2).2 := by
  obtain ⟨hb, hl, hn, hlen, hd⟩ := h
  simp only [bitstream_read_u32, ← hn, ← hlen]
  by_cases hend : is1.len < is1.next + 4
  · rw [if_pos hend, if_pos hend]
    exact ⟨rfl, hb, hl, hn, hlen, hd⟩
  · rw [if_neg hend, if_neg hend]
    refine ⟨?_, hb, hl, rfl, rfl, hd⟩
    simp only [get_unaligned_le32, byteAt]
    rw [hd _ (by omega), hd _ (by omega), hd _ (by omega), hd _ (by omega)]

theorem read_bytes_guard (is : input_bitstream) (count : Nat) (hinv : is.next ≤ is.len)
    (h64 : is.len < 2^64) :
    bitstream_read_bytes is count =
      if is.len - is.next < count then none
      else some ((List.range count).map fun i => byteAt is.data (is.next + i),
                 { is with next := is.next + count }) := by
  simp only [bitstream_read_bytes]
  have he : (((is.len : Int) - (is.next : Int)) % 2^64).toNat = is.len - is.next := by
    have h1 : ((is.len : Int) - is.next) % 2^64 = (is.len : Int) - is.next := by
      apply Int.emod_eq_of_lt (by omega) (by push_cast; omega)
    rw [h1]
    omega
  rw [he]


/-- C5: the invariant `next ≤ end` established by `init_input_bitstream`
is preserved by every bitstream operation (`ensure_bits`, `peek_bits`
and `align` in the first block together with `remove_bits`, `pop_bits`,
`read_bits`, `read_byte`, `read_u16`, `read_u32`, `read_bytes`), and no
operation reads a byte at or past `end`: applied to two states related by
`sameBelow` (equal except possibly in the bytes at or past `end`), every
operation returns equal values and `sameBelow`-related states. -/
theorem bitstream_cursor_invariant (is is2 : input_bitstream) (n count : Nat)
    (hinv : is.next ≤ is.len) (h64 : is.len < 2^64) (hsame : sameBelow is is2) :
    ((init_input_bitstream is.data is.len).next ≤ (init_input_bitstream is.data is.len).len ∧
     (bitstream_ensure_bits is n).next ≤ (bitstream_ensure_bits is n).len ∧
     (bitstream_remove_bits is n).next ≤ (bitstream_remove_bits is n).len ∧
     (bitstream_pop_bits is n).2.next ≤ (bitstream_pop_bits is n).2.len ∧
     (bitstream_read_bits is n).2.next ≤ (bitstream_read_bits is n).2.len ∧
     (bitstream_read_byte is).2.next ≤ (bitstream_read_byte is).2.len ∧
     (bitstream_read_u16 is).2.next ≤ (bitstream_read_u16 is).2.len ∧
     (bitstream_read_u32 is).2.next ≤ (bitstream_read_u32 is).2.len ∧
     (∀ out, bitstream_read_bytes is count = some out → out.2.next ≤ out.2.len) ∧
     (bitstream_align is).next ≤ (bitstream_align is).len) ∧
    (sameBelow (bitstream_ensure_bits is n) (bitstream_ensure_bits is2 n) ∧
     bitstream_peek_bits is n = bitstream_peek_bits is2 n ∧
     sameBelow (bitstream_remove_bits is n) (bitstream_remove_bits is2 n) ∧
     (bitstream_pop_bits is n).1 = (bitstream_pop_bits is2 n).1 ∧
     sameBelow (bitstream_pop_bits is n).2 (bitstream_pop_bits is2 n).2 ∧
     (bitstream_read_bits is n).1 = (bitstream_read_bits is2 n).1 ∧
     sameBelow (bitstream_read_bits is n).2 (bitstream_read_bits is2 n).2 ∧
     (bitstream_read_byte is).1 = (bitstream_read_byte is2).1 ∧
     sameBelow (bitstream_read_byte is).2 (bitstream_read_byte is2).2 ∧
     (bitstream_read_u16 is).1 = (bitstream_read_u16 is2).1 ∧
     sameBelow (bitstream_read_u16 is).2 (bitstream_read_u16 is2).2 ∧
     (bitstream_read_u32 is).1 = (bitstream_read_u32 is2).1 ∧
     sameBelow (bitstream_read_u32 is).2 (bitstream_read_u32 is2).2 ∧
     ((bitstream_read_bytes is count).isSome ↔ (bitstream_read_bytes is2 count).isSome) ∧
     (∀ p q, bitstream_read_bytes is count = some p → bitstream_read_bytes is2 count = some q →
       p.1 = q.1 ∧ sameBelow p.2 q.2) ∧
     sameBelow (bitstream_align is) (bitstream_align is2)) := by
  obtain ⟨hb, hl, hn, hlen, hd⟩ := hsame
  have hinv2 : is2.next ≤ is2.len := by omega
  have h642 : is2.len < 2^64 := by omega
  have hsame' : sameBelow is is2 := ⟨hb, hl, hn, hlen, hd⟩
  have hE : (bitstream_ensure_bits is n).next ≤ (bitstream_ensure_bits is n).len := by
    rw [ensure_len]
    exact ensure_next_le is n hinv
  constructor
  · refine ⟨Nat.zero_le _, hE, hinv, hinv, hE, ?_, ?_, ?_, ?_, hinv⟩
    · simp only [bitstream_read_byte]
      split_ifs <;> dsimp only <;> omega
    · simp only [bitstream_read_u16]
      split_ifs <;> dsimp only <;> omega
    · simp only [bitstream_read_u32]
      split_ifs <;> dsimp only <;> omega
    · intro out hout
      rw [read_bytes_guard is count hinv h64] at hout
      by_cases hg : is.len - is.next < count
      · rw [if_pos hg] at hout
        exact absurd hout (by simp)
      · rw [if_neg hg] at hout
        have := Option.some.inj hout
        rw [← this]
        dsimp only
        omega
  · have hbytes : ∀ p q, bitstream_read_bytes is count = some p →
        bitstream_read_bytes is2 count = some q → p.1 = q.1 ∧ sameBelow p.2 q.2 := by
      intro p q hp hq
      rw [read_bytes_guard is count hinv h64] at hp
      rw [read_bytes_guard is2 count hinv2 h642] at hq
      by_cases hg : is.len - is.next < count
      · rw [if_pos hg] at hp
        exact absurd hp (by simp)
      · rw [if_neg hg] at hp
        rw [if_neg (show ¬(is2.len - is2.next < count) by omega)] at hq
        have hp' := Option.some.inj hp
        have hq' := Option.some.inj hq
        rw [← hp', ← hq']
        constructor
        · dsimp only
          apply List.map_congr_left
          intro i hi
          rw [List.mem_range] at hi
          simp only [byteAt, hn]
          rw [hd _ (by omega)]
        · exact ⟨hb, hl, by dsimp only; rw [hn], by dsimp only; rw [hlen], by
            dsimp only; exact hd⟩
    refine ⟨ensure_sameBelow n hsame', peek_sameBelow n hsame', remove_sameBelow n hsame',
      peek_sameBelow n hsame', remove_sameBelow n hsame',
      peek_sameBelow n (ensure_sameBelow n hsame'), remove_sameBelow n (ensure_sameBelow n hsame'),
      (read_byte_spec hsame' hinv).1, (read_byte_spec hsame' hinv).2,
      (read_u16_spec hsame').1, (read_u16_spec hsame').2,
      (read_u32_spec hsame').1, (read_u32_spec hsame').2,
      ?_, hbytes, ⟨rfl, rfl, hn, hlen, hd⟩⟩
    rw [read_bytes_guard is count hinv h64, read_bytes_guard is2 count hinv2 h642]
    by_cases hg : is.len - is.next < count
    · rw [if_pos hg, if_pos (show is2.len - is2.next < count by omega)]
    · rw [if_neg hg, if_neg (show ¬(is2.len - is2.next < count) by omega)]
      simp

/-- C5 witness at a concrete input: a one-byte stream and a partner state
differing only past the end. -/
theorem bitstream_cursor_invariant_witness :
    (bitstream_ensure_bits ⟨0, 0, 0, (fun _ => 7), 1⟩ 5).next ≤
      (bitstream_ensure_bits ⟨0, 0, 0, (fun _ => 7), 1⟩ 5).len ∧
    (bitstream_read_byte ⟨0, 0, 0, (fun _ => 7), 1⟩).1 =
      (bitstream_read_byte ⟨0, 0, 0, (fun i => if i = 0 then 7 else 9), 1⟩).1 :=
  ⟨(bitstream_cursor_invariant ⟨0, 0, 0, (fun _ => 7), 1⟩
      ⟨0, 0, 0, (fun i => if i = 0 then 7 else 9), 1⟩ 5 1 (by norm_num) (by norm_num)
      (by refine ⟨rfl, rfl, rfl, rfl, ?_⟩; intro i hi; interval_cases i <;> norm_num)).1.2.1,
   (bitstream_cursor_invariant ⟨0, 0, 0, (fun _ => 7), 1⟩
      ⟨0, 0, 0, (fun i => if i = 0 then 7 else 9), 1⟩ 5 1 (by norm_num) (by norm_num)
      (by refine ⟨rfl, rfl, rfl, rfl, ?_⟩; intro i hi; interval_cases i <;> norm_num)).2.2.2.2.2.2.2.2.1⟩


/-- C7: for every bitstream state with cursor ≤ end (and an end index
within the 64-bit address space): `read_byte` returns 0 when no bytes
remain, `read_u16` returns 0 when fewer than 2 bytes remain, `read_u32`
returns 0 when fewer than 4 bytes remain — in each failing case the
stream state (cursor, accumulator) is unchanged — and `read_bytes`
returns failure (NULL) exactly when fewer than `count` bytes remain; none
of the four operations can crash or read past `end` (their results agree
across `sameBelow`-related states). -/
theorem bitstream_literal_reads_safe (is : input_bitstream) (count : Nat)
    (hinv : is.next ≤ is.len) (h64 : is.len < 2^64) :
    (is.next = is.len → bitstream_read_byte is = (0, is)) ∧
    (is.len < is.next + 2 → bitstream_read_u16 is = (0, is)) ∧
    (is.len < is.next + 4 → bitstream_read_u32 is = (0, is)) ∧
    (bitstream_read_bytes is count = none ↔ is.len - is.next < count) ∧
    (∀ is2, sameBelow is is2 →
      (bitstream_read_byte is).1 = (bitstream_read_byte is2).1 ∧
      (bitstream_read_u16 is).1 = (bitstream_read_u16 is2).1 ∧
      (bitstream_read_u32 is).1 = (bitstream_read_u32 is2).1 ∧
      ((bitstream_read_bytes is count).isSome ↔ (bitstream_read_bytes is2 count).isSome)) := by
  refine ⟨?_, ?_, ?_, ?_, ?_⟩
  · intro h
    simp only [bitstream_read_byte, if_pos h.symm]
  · intro h
    simp only [bitstream_read_u16, if_pos h]
  · intro h
    simp only [bitstream_read_u32, if_pos h]
  · rw [read_bytes_guard is count hinv h64]
    by_cases hg : is.len - is.next < count
    · rw [if_pos hg]
      simp [hg]
    · rw [if_neg hg]
      simp [hg]
  · intro is2 hs
    obtain ⟨hb, hl, hn, hlen, hd⟩ := hs
    refine ⟨(read_byte_spec ⟨hb, hl, hn, hlen, hd⟩ hinv).1,
      (read_u16_spec ⟨hb, hl, hn, hlen, hd⟩).1,
      (read_u32_spec ⟨hb, hl, hn, hlen, hd⟩).1, ?_⟩
    rw [read_bytes_guard is count hinv h64, read_bytes_guard is2 count (by omega) (by omega)]
    by_cases hg : is.len - is.next < count
    · rw [if_pos hg, if_pos (show is2.len - is2.next < count by omega)]
    · rw [if_neg hg, if_neg (show ¬(is2.len - is2.next < count) by omega)]
      simp

/-- C7 witness at a concrete input: one byte left, so `read_u16` returns
zero without moving and a 2-byte bulk read fails. -/
theorem bitstream_literal_reads_safe_witness :
    bitstream_read_u16 ⟨0, 0, 0, (fun _ => 3), 1⟩ = (0, ⟨0, 0, 0, (fun _ => 3), 1⟩) ∧
    bitstream_read_bytes ⟨0, 0, 0, (fun _ => 3), 1⟩ 2 = none :=
  ⟨(bitstream_literal_reads_safe ⟨0, 0, 0, (fun _ => 3), 1⟩ 2 (by norm_num)
      (by norm_num)).2.1 (by norm_num),
   (bitstream_literal_reads_safe ⟨0, 0, 0, (fun _ => 3), 1⟩ 2 (by norm_num)
      (by norm_num)).2.2.2.1.mpr (by norm_num)⟩


/-! ### The lone final byte of an odd-sized buffer -/

/-- A sequence of state-changing bit-granular operations (`peek` is pure;
`pop` and `read` decompose into these three). -/
inductive BitOp where
  | ensure (n : Nat)
  | remove (n : Nat)
  | align

def runBitOp (is : input_bitstream) : BitOp → input_bitstream
  | BitOp.ensure n => bitstream_ensure_bits is n
  | BitOp.remove n => bitstream_remove_bits is n
  | BitOp.align => bitstream_align is

def runBitOps (is : input_bitstream) : List BitOp → input_bitstream
  | [] => is
  | op :: ops => runBitOps (runBitOp is op) ops

/-- Relation preserved through bit-granular operations on an odd-sized
buffer: equal control state, an even cursor, an odd length, and input
bytes that agree everywhere except possibly at the final index
`len - 1`. -/
def agreeExceptLast (is1 is2 : input_bitstream) : Prop :=
  is1.bitbuf = is2.bitbuf ∧ is1.bitsleft = is2.bitsleft ∧ is1.next = is2.next ∧
    is1.len = is2.len ∧ is1.next % 2 = 0 ∧ is1.len % 2 = 1 ∧
    ∀ i, i + 1 ≠ is1.len → is1.data i = is2.data i

theorem runBitOp_agree {is1 is2 : input_bitstream} (op : BitOp)
    (h : agreeExceptLast is1 is2) : agreeExceptLast (runBitOp is1 op) (runBitOp is2 op) := by
  obtain ⟨hb, hl, hn, hlen, hpar, hodd, hd⟩ := h
  cases op with
  | ensure n =>
    simp only [runBitOp, bitstream_ensure_bits, ← hb, ← hl, ← hn, ← hlen]
    split_ifs with h1 h2
    · have e16 : get_unaligned_le16 is1.data is1.next =
          get_unaligned_le16 is2.data is1.next := by
        simp only [get_unaligned_le16, byteAt]
        rw [hd _ (by omega), hd _ (by omega)]
      exact ⟨by rw [e16], rfl, rfl, rfl, by dsimp only; omega, hodd, hd⟩
    · exact ⟨rfl, rfl, rfl, rfl, hpar, hodd, hd⟩
    · exact ⟨hb, hl, hn, hlen, hpar, hodd, hd⟩
  | remove n =>
    simp only [runBitOp, bitstream_remove_bits, ← hb, ← hl]
    exact ⟨rfl, rfl, hn, hlen, hpar, hodd, hd⟩
  | align =>
    simp only [runBitOp, bitstream_align]
    exact ⟨rfl, rfl, hn, hlen, hpar, hodd, hd⟩

theorem runBitOps_agree (ops : List BitOp) : ∀ {is1 is2 : input_bitstream},
    agreeExceptLast is1 is2 → agreeExceptLast (runBitOps is1 ops) (runBitOps is2 ops) := by
  induction ops with
  | nil => intro is1 is2 h; exact h
  | cons op ops ih =>
    intro is1 is2 h
    exact ih (runBitOp_agree op h)

/-- C10: when exactly one input byte remains before `end`,
`bitstream_ensure_bits` never reads it and leaves the cursor and the
accumulator unchanged, padding with 16 zero bits instead; consequently,
for every input buffer of odd size, the value of the final byte never
influences the accumulator, bit count, cursor, or any `peek` result
reached by any sequence of bit-granular operations started with
`init_input_bitstream` — only the byte-granular reads can observe it. -/
theorem ensure_bits_skips_lone_final_byte (is : input_bitstream) (n : Nat)
    (hone : is.next + 1 = is.len) (hbl : is.bitsleft < 32) :
    ((bitstream_ensure_bits is n).next = is.next ∧
     (bitstream_ensure_bits is n).bitbuf = is.bitbuf ∧
     (bitstream_ensure_bits is n).bitsleft =
       (if is.bitsleft < n then is.bitsleft + 16 else is.bitsleft)) ∧
    (∀ (d1 d2 : Nat → Nat) (len : Nat) (ops : List BitOp), len % 2 = 1 →
      (∀ i, i + 1 ≠ len → d1 i = d2 i) →
      (runBitOps (init_input_bitstream d1 len) ops).bitbuf =
        (runBitOps (init_input_bitstream d2 len) ops).bitbuf ∧
      (runBitOps (init_input_bitstream d1 len) ops).bitsleft =
        (runBitOps (init_input_bitstream d2 len) ops).bitsleft ∧
      (runBitOps (init_input_bitstream d1 len) ops).next =
        (runBitOps (init_input_bitstream d2 len) ops).next ∧
      ∀ k, bitstream_peek_bits (runBitOps (init_input_bitstream d1 len) ops) k =
        bitstream_peek_bits (runBitOps (init_input_bitstream d2 len) ops) k) := by
  constructor
  · simp only [bitstream_ensure_bits, if_neg (show ¬(is.next + 2 ≤ is.len) by omega)]
    split_ifs with h1
    · exact ⟨rfl, rfl, by dsimp only; omega⟩
    · exact ⟨rfl, rfl, rfl⟩
  · intro d1 d2 len ops hodd hd
    have h := @runBitOps_agree ops
      (init_input_bitstream d1 len) (init_input_bitstream d2 len)
      ⟨rfl, rfl, rfl, rfl, by norm_num [init_input_bitstream], hodd, hd⟩
    obtain ⟨hb, hl, hn, _, _, _, _⟩ := h
    exact ⟨hb, hl, hn, fun k => by simp only [bitstream_peek_bits, hb]⟩

/-- C10 witness at a concrete input: an odd (length-1) buffer whose lone
byte differs, read through an `ensure 16`. -/
theorem ensure_bits_skips_lone_final_byte_witness :
    (bitstream_ensure_bits ⟨0, 0, 0, (fun _ => 0), 1⟩ 3).next = 0 ∧
    (runBitOps (init_input_bitstream (fun _ => 0) 1) [BitOp.ensure 16]).bitbuf =
      (runBitOps (init_input_bitstream (fun i => if i = 0 then 5 else 0) 1)
        [BitOp.ensure 16]).bitbuf :=
  ⟨(ensure_bits_skips_lone_final_byte ⟨0, 0, 0, (fun _ => 0), 1⟩ 3 (by norm_num)
      (by norm_num)).1.1,
   ((ensure_bits_skips_lone_final_byte ⟨0, 0, 0, (fun _ => 0), 1⟩ 3 (by norm_num)
      (by norm_num)).2 (fun _ => 0) (fun i => if i = 0 then 5 else 0) 1 [BitOp.ensure 16]
      (by norm_num)
      (fun i hi => by simp only [if_neg (show ¬(i = 0) by omega)])).1⟩


/-! ### The Huffman symbol decoder -/

/-- Validity of one decode-table entry to tree depth `d`: either a fast
record, or a tree record whose two child slots are in range and valid to
depth `d - 1` (this is what the claim's "tree entries pointing to
in-range child slots, codewords at most `max_codeword_len` bits"
amounts to for the walk). -/
def goodEntryB (t : List Nat) : Nat → Nat → Bool
  | entry, 0 => decide (entry < 0xC000)
  | entry, d + 1 =>
    decide (entry < 0xC000) ||
      (decide ((entry &&& 0x3FFF) + 1 < t.length) &&
        goodEntryB t (tableAt t (entry &&& 0x3FFF)) d &&
        goodEntryB t (tableAt t ((entry &&& 0x3FFF) + 1)) d)

/-- Well-formedness of a decode table for `read_huffsym`: every slot of
the direct-index region holds either a fast record whose stored codeword
length (high 5 bits) is at most `maxlen`, or a tree record that reaches a
fast record within `maxlen - table_bits` one-bit steps through in-range
child slots. -/
def validTableB (t : List Nat) (table_bits maxlen : Nat) : Bool :=
  (List.range (2^table_bits)).all fun k =>
    if tableAt t k < 0xC000 then decide (tableAt t k >>> 11 ≤ maxlen)
    else goodEntryB t (tableAt t k) (maxlen - table_bits)

theorem ensure_bitsleft_ge (is : input_bitstream) (n : Nat) (hn : n ≤ 16)
    (hbl : is.bitsleft < 32) : n ≤ (bitstream_ensure_bits is n).bitsleft := by
  simp only [bitstream_ensure_bits]
  split_ifs with h1 h2
  · dsimp only
    omega
  · dsimp only
    omega
  · omega

theorem ensure_bitsleft_lt (is : input_bitstream) (n : Nat) (hbl : is.bitsleft < 32) :
    (bitstream_ensure_bits is n).bitsleft < 48 := by
  simp only [bitstream_ensure_bits]
  split_ifs with h1 h2
  · dsimp only
    omega
  · dsimp only
    omega
  · omega

theorem ensure_bitbuf_lt (is : input_bitstream) (n : Nat) (hbb : is.bitbuf < 2^32) :
    (bitstream_ensure_bits is n).bitbuf < 2^32 := by
  simp only [bitstream_ensure_bits]
  split_ifs with h1 h2
  · dsimp only
    omega
  · dsimp only
    omega
  · omega

theorem huffsym_loop_spec (t : List Nat) : ∀ (d : Nat) (entry : Nat) (is : input_bitstream),
    0xC000 ≤ entry → goodEntryB t entry d = true → is.bitbuf < 2^32 →
    d ≤ is.bitsleft → is.bitsleft < 2^32 →
    ∃ sym is', huffsym_loop t is entry d = some (sym, is') ∧
      is'.next = is.next ∧ is'.len = is.len ∧ is'.data = is.data ∧
      is.bitsleft ≤ is'.bitsleft + d ∧ is'.bitsleft ≤ is.bitsleft := by
  intro d
  induction d with
  | zero =>
    intro entry is hge hgood _ _ _
    simp only [goodEntryB, decide_eq_true_eq] at hgood
    omega
  | succ d ih =>
    intro entry is hge hgood hbb hdle hblt
    simp only [goodEntryB] at hgood
    have hnotfast : decide (entry < 0xC000) = false := by
      simp only [decide_eq_false_iff_not]
      omega
    rw [hnotfast, Bool.false_or] at hgood
    have hg1 : goodEntryB t (tableAt t (entry &&& 0x3FFF)) d = true :=
      (Bool.and_eq_true_iff.mp (Bool.and_eq_true_iff.mp hgood).1).2
    have hg2 : goodEntryB t (tableAt t ((entry &&& 0x3FFF) + 1)) d = true :=
      (Bool.and_eq_true_iff.mp hgood).2
    simp only [huffsym_loop]
    have hbit : bitstream_peek_bits is 1 ≤ 1 := by
      simp only [bitstream_peek_bits]
      rw [if_neg (by omega)]
      rw [Nat.shiftRight_eq_div_pow]
      omega
    have hge' : goodEntryB t (tableAt t ((entry &&& 0x3FFF) + bitstream_peek_bits is 1)) d
        = true := by
      rcases Nat.le_one_iff_eq_zero_or_eq_one.mp hbit with h0 | h1
      · rw [h0]
        simpa using hg1
      · rw [h1]
        exact hg2
    have hrembl : (bitstream_remove_bits is 1).bitsleft = is.bitsleft - 1 := by
      simp only [bitstream_remove_bits]
      omega
    have hrembb : (bitstream_remove_bits is 1).bitbuf < 2^32 := by
      simp only [bitstream_remove_bits]
      omega
    by_cases hcase : tableAt t ((entry &&& 0x3FFF) + bitstream_peek_bits is 1) ≥ 0xC000
    · rw [if_pos hcase]
      obtain ⟨sym, is', hl, hn, hlen, hdata, hge2, hle2⟩ :=
        ih (tableAt t ((entry &&& 0x3FFF) + bitstream_peek_bits is 1))
          (bitstream_remove_bits is 1) hcase hge' hrembb (by omega) (by omega)
      refine ⟨sym, is', hl, hn, hlen, hdata, by omega, by omega⟩
    · rw [if_neg hcase]
      exact ⟨_, bitstream_remove_bits is 1, rfl, rfl, rfl, rfl, by omega, by omega⟩

/-- C3: for every bitstream state with cursor ≤ end (and the reachable
accumulator invariants) and every decode table that is well formed for
`(table_bits, max_codeword_len)` — fast entries < 0xC000 with stored
length ≤ `max_codeword_len`, tree entries ≥ 0xC000 reaching fast records
through in-range child slots within `max_codeword_len - table_bits`
steps — `read_huffsym` with fuel `max_codeword_len - table_bits`
terminates with a symbol (even when the input is exhausted, the missing
bits reading as zero), consumes at most `max_codeword_len` bits of the
refilled accumulator, and never advances the input cursor past end. -/
theorem read_huffsym_terminates (is : input_bitstream) (t : List Nat) (tb ml : Nat)
    (htb : tb ≤ ml) (hml : ml ≤ 16) (hinv : is.next ≤ is.len)
    (hbb : is.bitbuf < 2^32) (hbl : is.bitsleft < 32) (hroot : 2^tb ≤ t.length)
    (hvalid : validTableB t tb ml = true) :
    (read_huffsym is t tb ml (ml - tb)).isSome = true ∧
    ∀ p, read_huffsym is t tb ml (ml - tb) = some p →
      p.2.len = is.len ∧ p.2.next ≤ is.len ∧
      p.2.next = (bitstream_ensure_bits is ml).next ∧
      (bitstream_ensure_bits is ml).bitsleft ≤ p.2.bitsleft + ml := by
  have h1ge : ml ≤ (bitstream_ensure_bits is ml).bitsleft := ensure_bitsleft_ge is ml hml hbl
  have h1lt : (bitstream_ensure_bits is ml).bitsleft < 48 := ensure_bitsleft_lt is ml hbl
  have h1bb : (bitstream_ensure_bits is ml).bitbuf < 2^32 := ensure_bitbuf_lt is ml hbb
  have h1next : (bitstream_ensure_bits is ml).next ≤ is.len := ensure_next_le is ml hinv
  have h1len : (bitstream_ensure_bits is ml).len = is.len := ensure_len is ml
  have hkey : bitstream_peek_bits (bitstream_ensure_bits is ml) tb < 2^tb := by
    simp only [bitstream_peek_bits]
    split_ifs with h0
    · exact Nat.pos_pow_of_pos _ (by omega)
    · rw [Nat.shiftRight_eq_div_pow]
      rw [Nat.div_lt_iff_lt_mul (Nat.pos_pow_of_pos _ (by omega))]
      calc (bitstream_ensure_bits is ml).bitbuf < 2^32 := h1bb
      _ = 2^tb * 2^(32 - tb) := by
          rw [← pow_add]
          congr 1
          omega
      _ = 2^tb * 2^(32 - tb) := rfl
  have hv : (if tableAt t (bitstream_peek_bits (bitstream_ensure_bits is ml) tb) < 0xC000
      then decide (tableAt t (bitstream_peek_bits (bitstream_ensure_bits is ml) tb) >>> 11 ≤ ml)
      else goodEntryB t (tableAt t (bitstream_peek_bits (bitstream_ensure_bits is ml) tb))
        (ml - tb)) = true :=
    List.all_eq_true.mp hvalid _ (List.mem_range.mpr hkey)
  simp only [read_huffsym]
  by_cases hfast : tableAt t (bitstream_peek_bits (bitstream_ensure_bits is ml) tb) < 0xC000
  · rw [if_pos hfast] at hv
    rw [if_pos hfast]
    rw [decide_eq_true_eq] at hv
    have hshift : tableAt t (bitstream_peek_bits (bitstream_ensure_bits is ml) tb) >>> 11
        < 2^32 := by
      have := tableAt t (bitstream_peek_bits (bitstream_ensure_bits is ml) tb)
      simp only [tableAt, Nat.shiftRight_eq_div_pow]
      omega
    refine ⟨rfl, ?_⟩
    intro p hp
    have hp' := Option.some.inj hp
    rw [← hp']
    dsimp only
    refine ⟨h1len, h1next, rfl, ?_⟩
    simp only [bitstream_remove_bits]
    rw [Nat.shiftRight_eq_div_pow] at hv ⊢
    omega
  · rw [if_neg hfast] at hv
    rw [if_neg hfast]
    have hge : 0xC000 ≤ tableAt t (bitstream_peek_bits (bitstream_ensure_bits is ml) tb) := by
      omega
    have hrembl : (bitstream_remove_bits (bitstream_ensure_bits is ml) tb).bitsleft =
        (bitstream_ensure_bits is ml).bitsleft - tb := by
      simp only [bitstream_remove_bits]
      omega
    have hrembb : (bitstream_remove_bits (bitstream_ensure_bits is ml) tb).bitbuf < 2^32 := by
      simp only [bitstream_remove_bits]
      omega
    obtain ⟨sym, is', hloop, hn, hlen', hdata, hge2, hle2⟩ :=
      huffsym_loop_spec t (ml - tb) _ (bitstream_remove_bits (bitstream_ensure_bits is ml) tb)
        hge hv hrembb (by omega) (by omega)
    rw [hloop]
    refine ⟨rfl, ?_⟩
    intro p hp
    have hp' := Option.some.inj hp
    rw [← hp']
    dsimp only
    have hnext' : is'.next = (bitstream_ensure_bits is ml).next := hn
    have hlen'' : is'.len = is.len := by
      rw [hlen']
      exact h1len
    refine ⟨hlen'', by omega, hnext', by omega⟩


/-- C3 witness at a concrete input: a complete 2-bit table read from an
already-exhausted input stream (all missing bits read as zero). -/
theorem read_huffsym_terminates_witness :
    (read_huffsym ⟨0, 0, 0, (fun _ => 0), 0⟩ [2048, 2048, 4097, 4098] 2 2 (2 - 2)).isSome
      = true :=
  (read_huffsym_terminates ⟨0, 0, 0, (fun _ => 0), 0⟩ [2048, 2048, 4097, 4098] 2 2
    (by norm_num) (by norm_num) (by norm_num) (by norm_num) (by norm_num) (by norm_num)
    (by decide)).1

/-- C8: whenever the decode-table entry indexed by the next `table_bits`
bits (after the `max_codeword_len ≤ 16`-bit refill) is a fast record
(value < 0xC000) whose stored codeword length — its high 5 bits,
`entry / 2048` — is at most `max_codeword_len`, `read_huffsym` returns
exactly the symbol stored in the record's low 11 bits (`entry % 2048`)
and removes exactly that stored codeword length from the bitstream
(`bitsleft` drops by exactly `entry / 2048`, the cursor does not move),
for any fuel. -/
theorem read_huffsym_fast_record (is : input_bitstream) (t : List Nat) (tb ml fuel : Nat)
    (hml : ml ≤ 16) (hbl : is.bitsleft < 32)
    (hfast : tableAt t (bitstream_peek_bits (bitstream_ensure_bits is ml) tb) < 0xC000)
    (hlen : tableAt t (bitstream_peek_bits (bitstream_ensure_bits is ml) tb) / 2048 ≤ ml) :
    read_huffsym is t tb ml fuel =
      some (tableAt t (bitstream_peek_bits (bitstream_ensure_bits is ml) tb) % 2048,
        bitstream_remove_bits (bitstream_ensure_bits is ml)
          (tableAt t (bitstream_peek_bits (bitstream_ensure_bits is ml) tb) / 2048)) ∧
    (bitstream_remove_bits (bitstream_ensure_bits is ml)
        (tableAt t (bitstream_peek_bits (bitstream_ensure_bits is ml) tb) / 2048)).bitsleft +
      tableAt t (bitstream_peek_bits (bitstream_ensure_bits is ml) tb) / 2048 =
      (bitstream_ensure_bits is ml).bitsleft ∧
    (bitstream_remove_bits (bitstream_ensure_bits is ml)
        (tableAt t (bitstream_peek_bits (bitstream_ensure_bits is ml) tb) / 2048)).next =
      (bitstream_ensure_bits is ml).next := by
  have h1ge : ml ≤ (bitstream_ensure_bits is ml).bitsleft := ensure_bitsleft_ge is ml hml hbl
  have h1lt : (bitstream_ensure_bits is ml).bitsleft < 48 := ensure_bitsleft_lt is ml hbl
  have he1 : tableAt t (bitstream_peek_bits (bitstream_ensure_bits is ml) tb) &&& 2047 =
      tableAt t (bitstream_peek_bits (bitstream_ensure_bits is ml) tb) % 2048 := by
    have h := Nat.and_pow_two_sub_one_eq_mod
      (tableAt t (bitstream_peek_bits (bitstream_ensure_bits is ml) tb)) 11
    norm_num at h
    exact h
  have he2 : tableAt t (bitstream_peek_bits (bitstream_ensure_bits is ml) tb) >>> 11 =
      tableAt t (bitstream_peek_bits (bitstream_ensure_bits is ml) tb) / 2048 := by
    have h := Nat.shiftRight_eq_div_pow
      (tableAt t (bitstream_peek_bits (bitstream_ensure_bits is ml) tb)) 11
    norm_num at h
    exact h
  refine ⟨?_, ?_, rfl⟩
  · simp only [read_huffsym]
    rw [if_pos hfast, he1, he2]
  · simp only [bitstream_remove_bits]
    omega

/-- C8 witness at a concrete input (two input bytes 0x58 0x58; the top
two refilled bits select slot 1, a fast record with length 1, symbol 0). -/
theorem read_huffsym_fast_record_witness :
    read_huffsym ⟨0, 0, 0, (fun _ => 88), 2⟩ [2048, 2048, 4097, 4098] 2 2 0 =
      some (tableAt [2048, 2048, 4097, 4098]
          (bitstream_peek_bits (bitstream_ensure_bits ⟨0, 0, 0, (fun _ => 88), 2⟩ 2) 2) % 2048,
        bitstream_remove_bits (bitstream_ensure_bits ⟨0, 0, 0, (fun _ => 88), 2⟩ 2)
          (tableAt [2048, 2048, 4097, 4098]
            (bitstream_peek_bits
              (bitstream_ensure_bits ⟨0, 0, 0, (fun _ => 88), 2⟩ 2) 2) / 2048)) :=
  (read_huffsym_fast_record ⟨0, 0, 0, (fun _ => 88), 2⟩ [2048, 2048, 4097, 4098] 2 2 0
    (by norm_num) (by norm_num) (by decide) (by decide)).1


/-! ### Round-trip of the bit reader against a reference bit writer -/

/-- Value of a bit sequence read most-significant bit first. -/
def bitsToNat : List Bool → Nat
  | [] => 0
  | b :: bs => b.toNat * 2^bs.length + bitsToNat bs

/-- The 16 bits of one coding unit, high to low. -/
def unitBits (u : Nat) : List Bool := (List.range 16).map fun i => u.testBit (15 - i)

/-- The unread bits currently buffered in the accumulator (left-justified:
the next bit to be consumed is bit 31). -/
def bufBits (is : input_bitstream) : List Bool :=
  (List.range is.bitsleft).map fun i => is.bitbuf.testBit (31 - i)

/-- The bits still in the input, one full little-endian 16-bit coding unit
at a time (a trailing lone byte is never read by the bit-level reader). -/
def unitSeq (data : Nat → Nat) (next len : Nat) : List Bool :=
  if next + 2 ≤ len then
    unitBits (get_unaligned_le16 data next) ++ unitSeq data (next + 2) len
  else []
termination_by len - next
decreasing_by omega

/-- The abstraction relation: the stream state `is` holds exactly the bit
sequence `bs` (first the buffered bits, then the bits still in the
input), together with the accumulator well-formedness the operations
maintain. -/
def Represents (is : input_bitstream) (bs : List Bool) : Prop :=
  is.bitbuf < 2^32 ∧ is.bitsleft ≤ 31 ∧ is.bitbuf % 2^(32 - is.bitsleft) = 0 ∧
    bs = bufBits is ++ unitSeq is.data is.next is.len

/-- Modelled from the spec (§8 "reference bit-writer"): pad the bit
sequence with zero bits to a whole number of 16-bit units. -/
def padBits (bs : List Bool) : List Bool :=
  bs ++ List.replicate ((16 - bs.length % 16) % 16) false

/-- Modelled from the spec: group a (padded) bit sequence into 16-bit
coding units, bits ordered high to low within each unit. -/
def unitsOfBits (bs : List Bool) : List Nat :=
  if h : bs = [] then [] else bitsToNat (bs.take 16) :: unitsOfBits (bs.drop 16)
termination_by bs.length
decreasing_by
  simp only [List.length_drop]
  have := List.length_pos.mpr h
  omega

/-- Modelled from the spec: serialize the units to bytes, little-endian. -/
def bytesOfUnits : List Nat → List Nat
  | [] => []
  | u :: us => u % 256 :: u / 256 % 256 :: bytesOfUnits us

/-- Modelled from the spec: the reference bit-writer — the byte buffer
holding the given bit sequence serialized into little-endian 16-bit
coding units with bits ordered high to low. -/
def writeBits (bs : List Bool) : List Nat := bytesOfUnits (unitsOfBits (padBits bs))

/-- Reading back a list of chunk widths, collecting the values. -/
def readChunks (is : input_bitstream) : List Nat → List Nat
  | [] => []
  | n :: ns => (bitstream_read_bits is n).1 :: readChunks (bitstream_read_bits is n).2 ns

/-- The expected chunk values of a bit sequence under the same chunking. -/
def specChunks (bs : List Bool) : List Nat → List Nat
  | [] => []
  | n :: ns => bitsToNat (bs.take n) :: specChunks (bs.drop n) ns

theorem bitsToNat_append (l1 : List Bool) : ∀ l2 : List Bool,
    bitsToNat (l1 ++ l2) = bitsToNat l1 * 2^l2.length + bitsToNat l2 := by
  induction l1 with
  | nil => intro l2; simp [bitsToNat]
  | cons b l1 ih =>
    intro l2
    show bitsToNat (b :: (l1 ++ l2)) = bitsToNat (b :: l1) * 2^l2.length + bitsToNat l2
    rw [show bitsToNat (b :: (l1 ++ l2)) =
      b.toNat * 2^(l1 ++ l2).length + bitsToNat (l1 ++ l2) from rfl]
    rw [show bitsToNat (b :: l1) = b.toNat * 2^l1.length + bitsToNat l1 from rfl]
    rw [ih, List.length_append, pow_add]
    ring

theorem bitsToNat_lt (l : List Bool) : bitsToNat l < 2^l.length := by
  induction l with
  | nil => simp [bitsToNat]
  | cons b l ih =>
    simp only [bitsToNat, List.length_cons, pow_succ]
    have : b.toNat ≤ 1 := Bool.toNat_le b
    nlinarith [ih]

theorem testBit_mul_pow_add_low (a m r i : Nat) (him : i < m) :
    (a * 2^m + r).testBit i = r.testBit i := by
  rw [Nat.testBit_to_div_mod, Nat.testBit_to_div_mod]
  have hsplit : a * 2^m = 2^i * (a * 2^(m - i)) := by
    rw [show 2^i * (a * 2^(m - i)) = a * (2^i * 2^(m - i)) by ring, ← pow_add]
    congr 2
    omega
  rw [hsplit, Nat.mul_add_div (Nat.pos_pow_of_pos _ (by omega))]
  have heven : (a * 2^(m - i)) % 2 = 0 := by
    have : a * 2^(m - i) = 2 * (a * 2^(m - i - 1)) := by
      rw [show 2 * (a * 2^(m - i - 1)) = a * (2 * 2^(m - i - 1)) by ring, ← pow_succ']
      congr 2
      omega
    omega
  rw [decide_eq_decide]
  omega

theorem testBit_mul_pow_add_high (a m r i : Nat) (hmi : m ≤ i) (hr : r < 2^m) :
    (a * 2^m + r).testBit i = a.testBit (i - m) := by
  rw [Nat.testBit_to_div_mod, Nat.testBit_to_div_mod]
  have hdiv : (a * 2^m + r) / 2^i = a / 2^(i - m) := by
    have hsplit : (2:Nat)^i = 2^m * 2^(i - m) := by
      rw [← pow_add]
      congr 1
      omega
    rw [hsplit, ← Nat.div_div_eq_div_mul]
    congr 1
    rw [show a * 2^m + r = 2^m * a + r by ring,
      Nat.mul_add_div (Nat.pos_pow_of_pos _ (by omega)), Nat.div_eq_of_lt hr, Nat.add_zero]
  rw [hdiv]

theorem testBit_bitsToNat (l : List Bool) : ∀ i : Nat,
    (bitsToNat l).testBit i =
      if i < l.length then l.getD (l.length - 1 - i) false else false := by
  induction l with
  | nil =>
    intro i
    simp [bitsToNat]
  | cons b l ih =>
    intro i
    simp only [bitsToNat, List.length_cons]
    rcases Nat.lt_trichotomy i l.length with hlt | heq | hgt
    · rw [testBit_mul_pow_add_low _ _ _ _ hlt, ih i, if_pos hlt, if_pos (by omega)]
      have e : l.length + 1 - 1 - i = (l.length - 1 - i) + 1 := by omega
      rw [e]
      rfl
    · rw [if_pos (by omega)]
      have e : l.length + 1 - 1 - i = 0 := by omega
      rw [e]
      have h := testBit_mul_pow_add_high b.toNat l.length (bitsToNat l) i (by omega)
        (bitsToNat_lt l)
      rw [h, show i - l.length = 0 by omega]
      cases b <;> simp
    · rw [if_neg (by omega)]
      apply Nat.testBit_lt_two_pow
      have h1 : bitsToNat (b :: l) < 2^(l.length + 1) := by
        have := bitsToNat_lt (b :: l)
        simpa using this
      have h2 : (2:Nat)^(l.length + 1) ≤ 2^i := Nat.pow_le_pow_right (by omega) (by omega)
      simp only [bitsToNat] at h1
      omega

theorem unitBits_bitsToNat (l : List Bool) (hl : l.length = 16) :
    unitBits (bitsToNat l) = l := by
  apply List.ext_getElem
  · simp [unitBits, hl]
  · intro j h1 h2
    simp only [unitBits, List.getElem_map, List.getElem_range]
    rw [testBit_bitsToNat]
    simp only [unitBits, List.length_map, List.length_range] at h1
    rw [if_pos (by omega)]
    have e : l.length - 1 - (15 - j) = j := by omega
    rw [e]
    exact List.getD_eq_getElem l false (by omega)

theorem bufBits_length (is : input_bitstream) : (bufBits is).length = is.bitsleft := by
  simp [bufBits]

theorem unitSeq_pos (data : Nat → Nat) (next len : Nat) (h : next + 2 ≤ len) :
    unitSeq data next len =
      unitBits (get_unaligned_le16 data next) ++ unitSeq data (next + 2) len := by
  conv_lhs => rw [unitSeq]
  rw [if_pos h]

theorem unitSeq_neg (data : Nat → Nat) (next len : Nat) (h : ¬ (next + 2 ≤ len)) :
    unitSeq data next len = [] := by
  rw [unitSeq, if_neg h]

theorem testBit_mul_pow (a m i : Nat) (hmi : m ≤ i) :
    (a * 2^m).testBit i = a.testBit (i - m) := by
  have h := testBit_mul_pow_add_high a m 0 i hmi (Nat.pos_pow_of_pos _ (by omega))
  simpa using h

/-- The value returned by `peek` is the numeric value of the first `n`
buffered bits. -/
theorem peek_eq_bitsToNat (is : input_bitstream) (n : Nat) (hn : n ≤ is.bitsleft)
    (hbl : is.bitsleft ≤ 31) (hbb : is.bitbuf < 2^32) :
    bitstream_peek_bits is n = bitsToNat ((bufBits is).take n) := by
  have haux : ∀ k, k ≤ 32 →
      is.bitbuf >>> (32 - k) =
        bitsToNat ((List.range k).map fun i => is.bitbuf.testBit (31 - i)) := by
    intro k
    induction k with
    | zero =>
      intro _
      simp only [List.range_zero, List.map_nil]
      rw [show bitsToNat [] = 0 from rfl, Nat.shiftRight_eq_div_pow, Nat.sub_zero]
      exact Nat.div_eq_of_lt hbb
    | succ k ih =>
      intro hk
      rw [List.range_succ, List.map_append, bitsToNat_append]
      simp only [List.map_cons, List.map_nil, List.length_cons, List.length_nil]
      rw [show bitsToNat [is.bitbuf.testBit (31 - k)] =
        (is.bitbuf.testBit (31 - k)).toNat * 2^(0:Nat) + 0 from rfl]
      rw [← ih (by omega)]
      rw [Nat.shiftRight_eq_div_pow, Nat.shiftRight_eq_div_pow, Nat.testBit_to_div_mod]
      rw [show 32 - (k+1) = 31 - k from by omega,
        show is.bitbuf / 2^(32 - k) = is.bitbuf / 2^(31 - k) / 2 from by
          rw [Nat.div_div_eq_div_mul]
          congr 1
          rw [← pow_succ]
          congr 1
          omega]
      generalize is.bitbuf / 2^(31 - k) = A
      rcases Nat.mod_two_eq_zero_or_one A with h | h <;>
        simp [h, pow_zero, pow_succ] <;> omega
  have htake : (bufBits is).take n =
      (List.range n).map fun i => is.bitbuf.testBit (31 - i) := by
    apply List.ext_getElem
    · simp only [List.length_take, bufBits, List.length_map, List.length_range]
      omega
    · intro j h1 h2
      rw [List.getElem_take]
      simp [bufBits]
  by_cases h0 : n = 0
  · subst h0
    rfl
  · simp only [bitstream_peek_bits, if_neg h0]
    rw [htake, haux n (by omega)]

/-- Appending a fresh 16-bit unit below `bl` buffered bits, at the bit
level. -/
theorem bufBits_append_unit (b q u bl : Nat) (hbl : bl ≤ 15) (hq : b = 2^(32 - bl) * q)
    (hu : u < 2^16) :
    ((List.range (bl + 16)).map fun i => (b + u * 2^(16 - bl)).testBit (31 - i)) =
      ((List.range bl).map fun i => b.testBit (31 - i)) ++ unitBits u := by
  have hB : b + u * 2^(16 - bl) = (q * 2^16 + u) * 2^(16 - bl) := by
    rw [hq, show (2:Nat)^(32 - bl) = 2^(16 - bl) * 2^16 from by
      rw [← pow_add]; congr 1; omega]
    ring
  apply List.ext_getElem
  · simp [unitBits]
  · intro j h1 h2
    simp only [List.length_map, List.length_range] at h1
    simp only [List.getElem_map, List.getElem_range]
    rw [hB]
    by_cases hj : j < bl
    · rw [List.getElem_append_left (by simpa using hj)]
      simp only [List.getElem_map, List.getElem_range]
      rw [testBit_mul_pow _ _ _ (by omega),
        testBit_mul_pow_add_high _ _ _ _ (by omega) hu,
        hq, show (2:Nat)^(32 - bl) * q = q * 2^(32 - bl) from by ring,
        testBit_mul_pow _ _ _ (by omega)]
      congr 1
      omega
    · rw [List.getElem_append_right (by simpa using hj)]
      simp only [unitBits, List.getElem_map, List.getElem_range, List.length_map,
        List.length_range]
      rw [testBit_mul_pow _ _ _ (by omega),
        testBit_mul_pow_add_low _ _ _ _ (by omega)]
      congr 1
      omega

/-- `ensure_bits` preserves the abstraction relation and establishes
`bitsleft ≥ n` whenever at least `n` bits remain in the stream. -/
theorem ensure_represents (is : input_bitstream) (bs : List Bool) (n : Nat)
    (hrep : Represents is bs) (hn : n ≤ 16) (hbs : n ≤ bs.length) :
    Represents (bitstream_ensure_bits is n) bs ∧
      n ≤ (bitstream_ensure_bits is n).bitsleft := by
  obtain ⟨hbb, hbl, hlow, hseq⟩ := hrep
  by_cases hlt : is.bitsleft < n
  · by_cases hroom : is.next + 2 ≤ is.len
    · have hul : get_unaligned_le16 is.data is.next < 2^16 := get_unaligned_le16_lt _ _
      have hor := @ensure_or_eq_add is.bitbuf (get_unaligned_le16 is.data is.next)
        is.bitsleft (by omega) hbb hlow hul
      have h16 : (is.bitsleft + 16) % 2^32 = is.bitsleft + 16 := by omega
      have hres : bitstream_ensure_bits is n =
          ⟨is.bitbuf + get_unaligned_le16 is.data is.next * 2^(16 - is.bitsleft),
            is.bitsleft + 16, is.next + 2, is.data, is.len⟩ := by
        simp only [bitstream_ensure_bits, if_pos hlt, if_pos hroom]
        rw [hor, h16]
      rw [hres]
      set u := get_unaligned_le16 is.data is.next with hu
      obtain ⟨q, hq⟩ := Nat.dvd_of_mod_eq_zero hlow
      have hq2 : q < 2^is.bitsleft := by
        by_contra hq2
        push_neg at hq2
        have hge : (2:Nat)^(32 - is.bitsleft) * 2^is.bitsleft ≤
            2^(32 - is.bitsleft) * q := Nat.mul_le_mul_left _ hq2
        rw [← pow_add, show 32 - is.bitsleft + is.bitsleft = 32 from by omega, ← hq] at hge
        omega
      have hsum : 2^(32 - is.bitsleft) * q + 2^(32 - is.bitsleft) ≤ 2^32 := by
        have h := Nat.mul_le_mul_left (2^(32 - is.bitsleft))
          (show q + 1 ≤ 2^is.bitsleft from by omega)
        rw [Nat.mul_add, Nat.mul_one, ← pow_add,
          show 32 - is.bitsleft + is.bitsleft = 32 from by omega] at h
        exact h
      have hub : u * 2^(16 - is.bitsleft) < 2^(32 - is.bitsleft) := by
        have h1 : u * 2^(16 - is.bitsleft) < 2^16 * 2^(16 - is.bitsleft) :=
          mul_lt_mul_of_pos_right hul (Nat.pos_pow_of_pos _ (by omega))
        rw [← pow_add, show 16 + (16 - is.bitsleft) = 32 - is.bitsleft from by omega] at h1
        exact h1
      unfold Represents
      refine ⟨⟨?_, ?_, ?_, ?_⟩, ?_⟩
      · show is.bitbuf + u * 2^(16 - is.bitsleft) < 2^32
        calc is.bitbuf + u * 2^(16 - is.bitsleft)
            < is.bitbuf + 2^(32 - is.bitsleft) := Nat.add_lt_add_left hub _
          _ = 2^(32 - is.bitsleft) * q + 2^(32 - is.bitsleft) := by rw [hq]
          _ ≤ 2^32 := hsum
      · show is.bitsleft + 16 ≤ 31
        omega
      · show (is.bitbuf + u * 2^(16 - is.bitsleft)) % 2^(32 - (is.bitsleft + 16)) = 0
        rw [show 32 - (is.bitsleft + 16) = 16 - is.bitsleft from by omega]
        apply Nat.mod_eq_zero_of_dvd
        exact Nat.dvd_add
          (dvd_trans (pow_dvd_pow 2 (by omega)) (Nat.dvd_of_mod_eq_zero hlow))
          (dvd_mul_left _ u)
      · show bs = ((List.range (is.bitsleft + 16)).map
            fun i => (is.bitbuf + u * 2^(16 - is.bitsleft)).testBit (31 - i)) ++
            unitSeq is.data (is.next + 2) is.len
        rw [hseq, unitSeq_pos _ _ _ hroom, ← List.append_assoc,
          bufBits_append_unit is.bitbuf q u is.bitsleft (by omega) hq hul]
        rfl
      · show n ≤ is.bitsleft + 16
        omega
    · exfalso
      rw [hseq, unitSeq_neg _ _ _ hroom, List.append_nil] at hbs
      rw [bufBits_length] at hbs
      omega
  · have hres : bitstream_ensure_bits is n = is := by
      simp only [bitstream_ensure_bits, if_neg hlt]
    rw [hres]
    exact ⟨⟨hbb, hbl, hlow, hseq⟩, by omega⟩

/-- `remove_bits` consumes exactly the first `n` bits of the represented
sequence. -/
theorem remove_represents (is : input_bitstream) (bs : List Bool) (n : Nat)
    (hrep : Represents is bs) (hn : n ≤ is.bitsleft) :
    Represents (bitstream_remove_bits is n) (bs.drop n) := by
  obtain ⟨hbb, hbl, hlow, hseq⟩ := hrep
  obtain ⟨q, hq⟩ := Nat.dvd_of_mod_eq_zero hlow
  have hbl' : (is.bitsleft + (2^32 - n % 2^32)) % 2^32 = is.bitsleft - n := by omega
  have hbuf : (is.bitbuf <<< n) % 2^32 =
      2^(32 - (is.bitsleft - n)) * (q % 2^(is.bitsleft - n)) := by
    rw [Nat.shiftLeft_eq, hq]
    rw [show 2^(32 - is.bitsleft) * q * 2^n = 2^(32 - (is.bitsleft - n)) * q from by
      rw [show 2^(32 - is.bitsleft) * q * 2^n = 2^(32 - is.bitsleft) * 2^n * q from by ring,
        ← pow_add, show 32 - is.bitsleft + n = 32 - (is.bitsleft - n) from by omega]]
    rw [show (2:Nat)^32 = 2^(32 - (is.bitsleft - n)) * 2^(is.bitsleft - n) from by
      rw [← pow_add]; congr 1; omega]
    exact Nat.mul_mod_mul_left _ _ _
  unfold Represents
  refine ⟨?_, ?_, ?_, ?_⟩
  · show (is.bitbuf <<< n) % 2^32 < 2^32
    exact Nat.mod_lt _ (by norm_num)
  · show (is.bitsleft + (2^32 - n % 2^32)) % 2^32 ≤ 31
    omega
  · show ((is.bitbuf <<< n) % 2^32) %
        2^(32 - ((is.bitsleft + (2^32 - n % 2^32)) % 2^32)) = 0
    rw [hbl', hbuf]
    exact Nat.mod_eq_zero_of_dvd (dvd_mul_right _ _)
  · show bs.drop n = bufBits (bitstream_remove_bits is n) ++
        unitSeq is.data is.next is.len
    rw [hseq, List.drop_append_of_le_length (by rw [bufBits_length]; exact hn)]
    congr 1
    apply List.ext_getElem
    · simp only [List.length_drop, bufBits_length, bitstream_remove_bits]
      omega
    · intro j h1 h2
      simp only [List.length_drop, bufBits_length] at h1
      rw [List.getElem_drop]
      simp only [bufBits, bitstream_remove_bits, List.getElem_map, List.getElem_range]
      rw [Nat.testBit_mod_two_pow, Nat.testBit_shiftLeft,
        show decide (31 - j < 32) = true from by
          simp only [decide_eq_true_eq]; omega,
        show decide (31 - j ≥ n) = true from by
          simp only [decide_eq_true_eq, ge_iff_le]; omega,
        Bool.true_and, Bool.true_and]
      congr 1
      omega

/-- `read_bits` returns the value of the next `n` bits and leaves the
stream representing the remaining bits. -/
theorem read_bits_spec (is : input_bitstream) (bs : List Bool) (n : Nat)
    (hrep : Represents is bs) (hn : n ≤ 16) (hbs : n ≤ bs.length) :
    (bitstream_read_bits is n).1 = bitsToNat (bs.take n) ∧
      Represents (bitstream_read_bits is n).2 (bs.drop n) := by
  obtain ⟨hrep1, hge⟩ := ensure_represents is bs n hrep hn hbs
  obtain ⟨hbb1, hbl1, hlow1, hseq1⟩ := hrep1
  constructor
  · show bitstream_peek_bits (bitstream_ensure_bits is n) n = bitsToNat (bs.take n)
    rw [peek_eq_bitsToNat _ n hge hbl1 hbb1]
    congr 1
    rw [hseq1, List.take_append_of_le_length (by rw [bufBits_length]; exact hge)]
  · show Represents (bitstream_remove_bits (bitstream_ensure_bits is n) n) (bs.drop n)
    exact remove_represents _ bs n ⟨hbb1, hbl1, hlow1, hseq1⟩ hge

/-- The bit sequence of a list of 16-bit units, in order. -/
def unitsBits : List Nat → List Bool
  | [] => []
  | u :: us => unitBits u ++ unitsBits us

theorem bytesOfUnits_length (us : List Nat) :
    (bytesOfUnits us).length = 2 * us.length := by
  induction us with
  | nil => rfl
  | cons u us ih =>
    simp only [bytesOfUnits, List.length_cons, ih]
    omega

theorem unitsOfBits_lt : ∀ (k : Nat) (p : List Bool), p.length ≤ k →
    ∀ u ∈ unitsOfBits p, u < 2^16 := by
  intro k
  induction k with
  | zero =>
    intro p hp u hu
    have hp0 : p = [] := List.length_eq_zero.mp (by omega)
    subst hp0
    rw [unitsOfBits] at hu
    simp at hu
  | succ k ih =>
    intro p hp u hu
    by_cases hp0 : p = []
    · subst hp0
      rw [unitsOfBits] at hu
      simp at hu
    · rw [unitsOfBits, dif_neg hp0] at hu
      rcases List.mem_cons.mp hu with h | h
      · subst h
        calc bitsToNat (p.take 16) < 2^(p.take 16).length := bitsToNat_lt _
          _ ≤ 2^16 := Nat.pow_le_pow_right (by omega) (by simp)
      · have hlen : (p.drop 16).length ≤ k := by
          have := List.length_pos.mpr hp0
          simp only [List.length_drop]
          omega
        exact ih (p.drop 16) hlen u h

theorem unitsBits_unitsOfBits : ∀ (k : Nat) (p : List Bool), p.length = 16 * k →
    unitsBits (unitsOfBits p) = p := by
  intro k
  induction k with
  | zero =>
    intro p hp
    have hp0 : p = [] := List.length_eq_zero.mp (by omega)
    subst hp0
    rw [unitsOfBits]
    simp [unitsBits]
  | succ k ih =>
    intro p hp
    have hp0 : p ≠ [] := by
      intro h
      subst h
      simp at hp
    rw [unitsOfBits, dif_neg hp0]
    show unitBits (bitsToNat (p.take 16)) ++ unitsBits (unitsOfBits (p.drop 16)) = p
    rw [unitBits_bitsToNat _ (by simp only [List.length_take]; omega),
      ih (p.drop 16) (by simp only [List.length_drop]; omega),
      List.take_append_drop]

/-- Reading the serialized bytes back one unit at a time recovers the
units' bit sequence. -/
theorem unitSeq_units (us : List Nat) : ∀ (next len : Nat) (data : Nat → Nat),
    (∀ u ∈ us, u < 2^16) →
    len = next + 2 * us.length →
    (∀ j, j < 2 * us.length → data (next + j) = (bytesOfUnits us).getD j 0) →
    unitSeq data next len = unitsBits us := by
  induction us with
  | nil =>
    intro next len data _ hlen _
    rw [unitSeq_neg _ _ _ (by simp at hlen; omega)]
    rfl
  | cons u us ih =>
    intro next len data hus hlen hdata
    simp only [List.length_cons] at hlen hdata
    have h2 : next + 2 ≤ len := by omega
    have hu : u < 2^16 := hus u (List.mem_cons_self _ _)
    have hd0 : data (next + 0) = u % 256 := hdata 0 (by omega)
    have hd1 : data (next + 1) = u / 256 % 256 := hdata 1 (by omega)
    have hget : get_unaligned_le16 data next = u := by
      rw [get_unaligned_le16_eq]
      simp only [byteAt]
      rw [show data next = data (next + 0) from by rw [Nat.add_zero], hd0, hd1]
      omega
    rw [unitSeq_pos _ _ _ h2, hget]
    show unitBits u ++ unitSeq data (next + 2) len = unitBits u ++ unitsBits us
    rw [ih (next + 2) len data (fun v hv => hus v (List.mem_cons_of_mem _ hv))
      (by omega)
      (fun j hj => by
        have h := hdata (j + 2) (by omega)
        rw [show next + 2 + j = next + (j + 2) from by omega]
        exact h)]

theorem specChunks_append (bs ext : List Bool) : ∀ ns : List Nat, ns.sum ≤ bs.length →
    specChunks (bs ++ ext) ns = specChunks bs ns := by
  intro ns
  induction ns generalizing bs with
  | nil => intro _; rfl
  | cons n ns ih =>
    intro hsum
    simp only [List.sum_cons] at hsum
    simp only [specChunks]
    rw [List.take_append_of_le_length (by omega),
      List.drop_append_of_le_length (by omega),
      ih (bs.drop n) (by simp only [List.length_drop]; omega)]

theorem readChunks_spec : ∀ (ns : List Nat) (is : input_bitstream) (p : List Bool),
    Represents is p → (∀ n ∈ ns, n ≤ 16) → ns.sum ≤ p.length →
    readChunks is ns = specChunks p ns := by
  intro ns
  induction ns with
  | nil => intro is p _ _ _; rfl
  | cons n ns ih =>
    intro is p hrep hle hsum
    simp only [List.sum_cons] at hsum
    obtain ⟨h1, h2⟩ := read_bits_spec is p n hrep (hle n (List.mem_cons_self _ _))
      (by omega)
    simp only [readChunks, specChunks]
    rw [h1, ih _ (p.drop n) h2 (fun m hm => hle m (List.mem_cons_of_mem _ hm))
      (by simp only [List.length_drop]; omega)]

theorem init_represents (data : Nat → Nat) (len : Nat) :
    Represents (init_input_bitstream data len) (unitSeq data 0 len) := by
  unfold Represents init_input_bitstream
  refine ⟨by norm_num, by norm_num, by norm_num, ?_⟩
  show unitSeq data 0 len = bufBits ⟨0, 0, 0, data, len⟩ ++ unitSeq data 0 len
  simp [bufBits]

theorem padBits_prefix (bs : List Bool) :
    padBits bs = bs ++ List.replicate ((16 - bs.length % 16) % 16) false := rfl

theorem padBits_length (bs : List Bool) :
    (padBits bs).length = bs.length + (16 - bs.length % 16) % 16 := by
  simp [padBits]

theorem padBits_length_mod (bs : List Bool) : (padBits bs).length % 16 = 0 := by
  rw [padBits_length]
  omega

/-- C6: for every bit sequence serialized by the reference bit-writer
into little-endian 16-bit coding units with bits ordered high to low,
reading it back through `init_input_bitstream` followed by
`bitstream_read_bits` calls with any chunking (each chunk at most 16
bits wide, chunks covering the sequence) yields exactly the original
bit values in order. -/
theorem bitreader_roundtrip (bs : List Bool) (ns : List Nat)
    (hns : ∀ n ∈ ns, n ≤ 16) (hsum : ns.sum = bs.length) :
    readChunks (init_input_bitstream
      (fun i => (writeBits bs).getD i 0) (writeBits bs).length) ns =
      specChunks bs ns := by
  have hk : (padBits bs).length = 16 * ((padBits bs).length / 16) := by
    have := padBits_length_mod bs
    omega
  have hunits_lt : ∀ u ∈ unitsOfBits (padBits bs), u < 2^16 :=
    unitsOfBits_lt (padBits bs).length _ (le_refl _)
  have hLlen : (writeBits bs).length = 2 * (unitsOfBits (padBits bs)).length :=
    bytesOfUnits_length _
  have hseq : unitSeq (fun i => (writeBits bs).getD i 0) 0 (writeBits bs).length =
      padBits bs := by
    rw [unitSeq_units (unitsOfBits (padBits bs)) 0 (writeBits bs).length _
      hunits_lt (by omega)
      (fun j hj => by rw [Nat.zero_add]; rfl)]
    exact unitsBits_unitsOfBits _ (padBits bs) hk
  have hrep := init_represents (fun i => (writeBits bs).getD i 0) (writeBits bs).length
  rw [hseq] at hrep
  have hpl : bs.length ≤ (padBits bs).length := by
    rw [padBits_length]
    omega
  rw [readChunks_spec ns _ (padBits bs) hrep hns (by omega),
    padBits_prefix, specChunks_append bs _ ns (by omega)]

theorem bitreader_roundtrip_witness :
    (∀ n ∈ ([2, 1] : List Nat), n ≤ 16) ∧
      ([2, 1] : List Nat).sum = ([true, false, true] : List Bool).length ∧
      readChunks (init_input_bitstream
        (fun i => (writeBits [true, false, true]).getD i 0)
        (writeBits [true, false, true]).length) [2, 1] =
        specChunks [true, false, true] [2, 1] :=
  ⟨by decide, by decide, bitreader_roundtrip [true, false, true] [2, 1]
    (by decide) (by decide)⟩

end NtfsDecompress
